import Mathlib

/-!
Verification development for the interactive CLI project: the command-tree
grammar engine (`cli_common.py`) and the configuration transaction engine
(`config.py`), shallowly embedded in Lean 4.

JSON-like tree nodes (the operational/config grammar trees) are embedded as
the inductive `JVal`; configuration documents (plain nested mappings whose
leaves are presence flags, scalar strings, or lists of scalars) are embedded
as the inductive `Doc`.  Python dictionaries are modelled as association
lists: insertion-ordered where the source relies on insertion order
(candidate/working configuration edits), and in sorted canonical form where
the source only uses dictionaries key-extensionally and sorts keys before
emitting anything (`_merge_dicts` / `_diff`).
-/

namespace CliCommon

/-- A JSON-like value as loaded from `op.json` / `config.json`: the duck-typed
Python values walked by `CommandNavigator`.  `dict` keeps insertion order, as
Python dictionaries do. -/
inductive JVal where
  | str : String → JVal
  | bool : Bool → JVal
  | list : List JVal → JVal
  | dict : List (String × JVal) → JVal
deriving Repr

/-- `META_KEYS = {"description", "type", "command", "values"}` from
`cli_common.py`. -/
def metaKeys : List String := ["description", "type", "command", "values"]

/-- Association-list lookup, modelling `d.get(k)` on a Python dict (keys in a
dict are unique, so first-match lookup agrees with it). -/
def alookup {α : Type} (es : List (String × α)) (k : String) : Option α :=
  match es with
  | [] => none
  | (k', v) :: rest => if k' = k then some v else alookup rest k

/-- `CommandNavigator.get_children`: the entries of a node whose value is a
dict and whose key is not a metadata key, in insertion order. -/
def getChildren (node : JVal) : List (String × JVal) :=
  match node with
  | .dict es => es.filter (fun e =>
      (match e.2 with | .dict _ => true | _ => false) && !(metaKeys.contains e.1))
  | _ => []

/-- `node.get("type")` restricted to string values. -/
def jgetStr (node : JVal) (k : String) : Option String :=
  match node with
  | .dict es =>
    match alookup es k with
    | some (.str s) => some s
    | _ => none
  | _ => none

/-- `CommandNavigator.is_tag_node`: the node is a dict whose `"type"` entry is
the string `"tagNode"`. -/
def isTagNode (node : JVal) : Bool :=
  jgetStr node "type" = some "tagNode"

/-- The loop body of `CommandNavigator.resolve_path`: walk tokens from
`cur`, descending on child-key matches (appending to the consumed path),
staying in place on a tag node for a non-child token, and stopping with the
offending token otherwise.  Note the error case returns `none` as the node. -/
def resolveFrom (cur : JVal) (consumed : List String) :
    List String → Option JVal × List String × Option String
  | [] => (some cur, consumed, none)
  | t :: rest =>
    match alookup (getChildren cur) t with
    | some child => resolveFrom child (consumed ++ [t]) rest
    | none =>
      if isTagNode cur then resolveFrom cur consumed rest
      else (none, consumed, some t)

/-- `CommandNavigator.resolve_path(tokens)` starting at the tree root. -/
def resolvePath (root : JVal) (tokens : List String) :
    Option JVal × List String × Option String :=
  resolveFrom root [] tokens

/-- The concrete fragment of the operational tree used by the spec's
tag-node examples: `route` under `show ip` is a tag node.  For C7 the tag
node also carries a nested tag-node child `test`. -/
def routeNode : JVal :=
  .dict [("type", .str "tagNode"),
         ("description", .str "IP route"),
         ("test", .dict [("type", .str "tagNode")])]

/-- A `route` tag node with no declared children (only metadata), as in C1. -/
def routeNodeBare : JVal :=
  .dict [("type", .str "tagNode"), ("description", .str "IP route")]

/-- `show ip route` tree with a childless `route` tag node. -/
def opTreeBare : JVal :=
  .dict [("show", .dict [("description", .str "Show commands"),
            ("ip", .dict [("type", .str "node"),
               ("route", routeNodeBare)])])]

/-- `show ip route` tree where `route` has the nested tag-node child `test`. -/
def opTreeNested : JVal :=
  .dict [("show", .dict [("description", .str "Show commands"),
            ("ip", .dict [("type", .str "node"),
               ("route", routeNode)])])]

/-- Split a character list on runs of spaces, accumulating the current token
reversed in `cur`. -/
def splitWsAux : List Char → List Char → List String
  | [], cur => if cur = [] then [] else [String.mk cur.reverse]
  | c :: rest, cur =>
    if c = ' ' then
      if cur = [] then splitWsAux rest []
      else String.mk cur.reverse :: splitWsAux rest []
    else splitWsAux rest (c :: cur)

/-- Whitespace tokenization: models `shlex.split(raw, posix=True)` (and the
`str.split()` fallback) for input lines without quotes or backslashes, the
fragment exercised by the spec's examples: split on spaces, dropping empty
pieces. -/
def tokenizeWs (raw : String) : List String :=
  splitWsAux raw.data []

/-- `raw_text.endswith(" ")`: the last character is a space. -/
def endsWithSpace (raw : String) : Bool :=
  match raw.data.getLast? with
  | some c => c = ' '
  | none => false

/-- `CommandNavigator.parse_input_tokens`: returns
`(path_tokens, ends_with_space, current_prefix)`.  When the text does not end
in a space, the last token is the in-progress current token and is excluded
from the path tokens. -/
def parseInputTokens (raw : String) : List String × Bool × String :=
  let parts := tokenizeWs raw
  let ends := endsWithSpace raw
  if !ends && !parts.isEmpty then (parts.dropLast, ends, parts.getLastD "")
  else (parts, ends, "")

/-- `k.startswith(pre)` on strings, via their character lists. -/
def strStartsWith (k pre : String) : Bool :=
  pre.data.isPrefixOf k.data

/-- `CommandNavigator.filter_keys_by_prefix`: filter candidates by the
in-progress token (no filtering when the in-progress token is empty). -/
def filterKeysByPref (keys : List String) (pre : String) : List String :=
  if pre ≠ "" then keys.filter (fun k => strStartsWith k pre) else keys

/-- The walk of `CommandNavigator.extract_tag_values`: descend on child keys
(remembering the key name), capture the first non-child token seen while
sitting on a tag node under that tag node's key name, and stop on an unknown
token while not on a tag node.  `curKey` is Python's `current_key_name`;
its truthiness test makes an empty-string key behave like no key. -/
def extractFrom (cur : JVal) (curKey : Option String)
    (values : List (String × String)) : List String → List (String × String)
  | [] => values
  | t :: rest =>
    match alookup (getChildren cur) t with
    | some child => extractFrom child (some t) values rest
    | none =>
      match curKey with
      | some k =>
        if isTagNode cur && k ≠ "" then
          extractFrom cur curKey
            (if alookup values k = none then values ++ [(k, t)] else values) rest
        else values
      | none => values

/-- `CommandNavigator.extract_tag_values(raw_text)`. -/
def extractTagValues (root : JVal) (raw : String) : List (String × String) :=
  extractFrom root none [] (tokenizeWs raw)

/-- The walk of `CommandNavigator.tag_value_entered_for_node`, which compares
the current node against the target with Python object identity
(`current_node is node`).  Each subtree of a loaded JSON tree is a distinct
object, so identity of a node reached by the walk is modelled by the path of
child keys descended so far (`curPath`) matching the target's descent path.
On a non-child token while on a tag node other than the target, the walk
consumes the token as that node's value and continues from the same node. -/
def tagEnteredFrom (cur : JVal) (curPath target : List String) :
    List String → Bool
  | [] => false
  | t :: rest =>
    match alookup (getChildren cur) t with
    | some child => tagEnteredFrom child (curPath ++ [t]) target rest
    | none =>
      if isTagNode cur then
        if curPath = target then true
        else tagEnteredFrom cur curPath target rest
      else false

/-- `CommandNavigator.tag_value_entered_for_node(node, raw_text)`, the
raw-text-driven entry point: it re-tokenizes the input line itself. -/
def tagValueEnteredForNode (root : JVal) (target : List String)
    (raw : String) : Bool :=
  tagEnteredFrom root [] target (tokenizeWs raw)

/-- `CommandNavigator.tag_value_entered_for_node_with_tokens(node, tokens)`,
the token-driven entry point used while typing.  On the first non-child token
met while on a tag node it returns `current_node is node` immediately -- it
does not continue walking past another tag node's value. -/
def tagEnteredTokFrom (cur : JVal) (curPath target : List String) :
    List String → Bool
  | [] => false
  | t :: rest =>
    match alookup (getChildren cur) t with
    | some child => tagEnteredTokFrom child (curPath ++ [t]) target rest
    | none =>
      if isTagNode cur then curPath = target
      else false

/-- Entry point of the token-driven query, starting at the tree root. -/
def tagValueEnteredForNodeWithTokens (root : JVal) (target : List String)
    (tokens : List String) : Bool :=
  tagEnteredTokFrom root [] target tokens

/-- The `"type"` metadata of the child named `k` in a child map, i.e.
`child_map.get(k, {}).get("type")`. -/
def childTypeIn (childMap : List (String × JVal)) (k : String) :
    Option String :=
  match alookup childMap k with
  | some c => jgetStr c "type"
  | none => none

/-- Lexicographic comparison of character lists by code point, the string
order used by Python's `sorted`. -/
def charsLe : List Char → List Char → Bool
  | [], _ => true
  | _ :: _, [] => false
  | a :: as, b :: bs =>
    if a < b then true else if b < a then false else charsLe as bs

/-- String comparison by code points. -/
def strLe (a b : String) : Bool := charsLe a.data b.data

/-- Insert into a sorted list of strings. -/
def sortedInsert (x : String) : List String → List String
  | [] => [x]
  | y :: ys => if strLe x y then x :: y :: ys else y :: sortedInsert x ys

/-- `sorted(...)` on a list of strings (insertion sort; dict keys are
unique, so stability is irrelevant). -/
def sortStrings : List String → List String
  | [] => []
  | x :: xs => sortedInsert x (sortStrings xs)

/-- The candidate-key computation of
`CommandNavigator.get_completion_context` after a successful resolve:
sorted non-metadata child keys, filtered by the tag-node visibility rule
(leaf children only before the tag node's value is entered, non-leaf
children only after), the value-entered test being the token-driven one over
the path tokens. -/
def completionKeysAt (root node : JVal) (consumed pathToks : List String) :
    List String :=
  let childMap := getChildren node
  let base := sortStrings (childMap.map Prod.fst)
  if isTagNode node then
    if tagValueEnteredForNodeWithTokens root consumed pathToks then
      base.filter (fun k => !(childTypeIn childMap k == some "leafNode"))
    else
      base.filter (fun k => childTypeIn childMap k == some "leafNode")
  else base

/-- Truthiness of `error_token` in `if error_token or resolved_node is None`. -/
def errTruthy (errTok : Option String) : Bool :=
  match errTok with
  | some t => t ≠ ""
  | none => false

/-- `CommandNavigator.get_completion_context(raw_text)`: returns
`(resolved_node, current_prefix, ends_with_space, candidate_keys)`. -/
def getCompletionContext (root : JVal) (raw : String) :
    Option JVal × String × Bool × List String :=
  let pt := (parseInputTokens raw).1
  let ends := (parseInputTokens raw).2.1
  let pre := (parseInputTokens raw).2.2
  let r := resolvePath root pt
  match r.1 with
  | none => (none, pre, ends, [])
  | some node =>
    if errTruthy r.2.2 then (none, pre, ends, [])
    else
      let keys := completionKeysAt root node r.2.1 pt
      if ends then (some node, "", true, keys)
      else (some node, pre, ends, filterKeysByPref keys pre)

/-- A two-level tree whose root child `a` is a plain container with one
child `b`: used to exhibit the error-branch behaviour of `resolve_path`. -/
def containerTree : JVal :=
  .dict [("a", .dict [("type", .str "node"),
            ("b", .dict [("type", .str "node")])])]

/-- A tree whose root child `a` is a tag node with a nested child tag node
`b`: the nested tag-chain configuration from the spec's design notes. -/
def nestedTagTree : JVal :=
  .dict [("a", .dict [("type", .str "tagNode"),
            ("b", .dict [("type", .str "tagNode")])])]

/-- A `route` tag node declaring both a leaf child (`summary`) and a
non-leaf child (`test`), for the completion-visibility rule. -/
def routeNodeMixed : JVal :=
  .dict [("type", .str "tagNode"),
         ("summary", .dict [("type", .str "leafNode")]),
         ("test", .dict [("type", .str "tagNode")])]

/-- `show ip route` tree where `route` has one leaf and one non-leaf child. -/
def opTreeMixed : JVal :=
  .dict [("show", .dict [("ip", .dict [("type", .str "node"),
            ("route", routeNodeMixed)])])]

end CliCommon

namespace Config

open CliCommon

/-- An element of a multi-value list as stored by `_apply_set`: the Python
boolean `True` (which can be swept into a list from a pre-existing presence
flag) or a scalar string. -/
inductive VAtom where
  | t : VAtom
  | s : String → VAtom
deriving DecidableEq, Repr

/-- A configuration-document value (`config.py`): a nested plain mapping, a
presence flag (`True`), a scalar string, or a list of scalars.  Python
dictionaries are embedded as association lists.  Where the source relies on
`set`/`sorted` over keys (`_merge_dicts`, `_diff`), documents are taken in
canonical form: keys strictly sorted; this is faithful because those
functions use dictionaries key-extensionally and sort keys before emitting
output. -/
inductive Doc where
  | flag : Doc
  | str : String → Doc
  | vals : List VAtom → Doc
  | map : List (String × Doc) → Doc
deriving Repr

/-- The entry list of a document mapping. -/
abbrev Entries := List (String × Doc)

/-- Strict lexicographic comparison of character lists by code point. -/
def charsLt : List Char → List Char → Bool
  | [], [] => false
  | [], _ :: _ => true
  | _ :: _, [] => false
  | a :: as, b :: bs =>
    if a < b then true else if b < a then false else charsLt as bs

/-- Strict string comparison by code points (Python `<` on `str`). -/
def strLt (a b : String) : Bool := charsLt a.data b.data

mutual

/-- `_merge_dicts` on values: for two mappings, recursive per-key union;
otherwise the right value wins when present (`rv is not None`), else the
left survives. -/
def mergeDoc : Doc → Doc → Doc
  | .map l, .map r => .map (mergeEntries l r)
  | _, r => r
termination_by a b => sizeOf a + sizeOf b

/-- `_merge_dicts` over `set(left) | set(right)` in canonical sorted form:
a sorted merge of the two entry lists, keys only in one side kept as-is,
keys in both combined with `mergeDoc`. -/
def mergeEntries : Entries → Entries → Entries
  | [], r => r
  | l, [] => l
  | (k1, v1) :: l, (k2, v2) :: r =>
    if strLt k1 k2 then (k1, v1) :: mergeEntries l ((k2, v2) :: r)
    else if strLt k2 k1 then (k2, v2) :: mergeEntries ((k1, v1) :: l) r
    else (k1, mergeDoc v1 v2) :: mergeEntries l r
termination_by l r => sizeOf l + sizeOf r

end

/-- `str(item)` on a list element. -/
def atomStr : VAtom → String
  | .t => "True"
  | .s v => v

/-- `repr(item)` as it appears inside Python's rendering of a list. -/
def atomRepr : VAtom → String
  | .t => "True"
  | .s v => "'" ++ v ++ "'"

/-- `str(v)` on a non-mapping document value (the mapping branch is
unreachable at the source's call sites, which guard on `isinstance(v, dict)`
first). -/
def docStr : Doc → String
  | .flag => "True"
  | .str s => s
  | .vals items => "[" ++ String.intercalate ", " (items.map atomRepr) ++ "]"
  | .map _ => "<dict>"

/-- `' '.join(tokens)`. -/
def joinTok : List String → String
  | [] => ""
  | [x] => x
  | x :: xs => x ++ " " ++ joinTok xs

/-- An added diff line `f"+ {' '.join(toks)}"`. -/
def mkAddLine (toks : List String) : String := "+ " ++ joinTok toks

/-- A removed diff line `f"- {' '.join(toks)}"`. -/
def mkDelLine (toks : List String) : String := "- " ++ joinTok toks

mutual

/-- `_emit_removed_leaves`: walk a removed subtree emitting one `-` line per
leaf-like option (scalar values suffixed with `str(v)`, flags and empty
containers path-only).  The non-mapping cases are the function's top-level
`else` (`- join(prefix + [str(node)])`). -/
def emitRemoved (pre : List String) : Doc → List String
  | .map es => emitRemovedEntries pre es
  | .flag => [mkDelLine (pre ++ [docStr .flag])]
  | .str s => [mkDelLine (pre ++ [docStr (.str s)])]
  | .vals l => [mkDelLine (pre ++ [docStr (.vals l)])]

/-- The per-key loop of `_emit_removed_leaves` (keys in sorted order, which
canonical form provides): non-empty mapping children recurse, empty mapping
children and `True` flags emit a path-only line, other values a
value-suffixed line. -/
def emitRemovedEntries (pre : List String) : Entries → List String
  | [] => []
  | (k, .map []) :: rest => [mkDelLine (pre ++ [k])] ++ emitRemovedEntries pre rest
  | (k, .map (e :: es2)) :: rest =>
    emitRemoved (pre ++ [k]) (.map (e :: es2)) ++ emitRemovedEntries pre rest
  | (k, .flag) :: rest => [mkDelLine (pre ++ [k])] ++ emitRemovedEntries pre rest
  | (k, .str s) :: rest =>
    [mkDelLine (pre ++ [k, docStr (.str s)])] ++ emitRemovedEntries pre rest
  | (k, .vals l) :: rest =>
    [mkDelLine (pre ++ [k, docStr (.vals l)])] ++ emitRemovedEntries pre rest

end

mutual

/-- `_emit_added_leaves`: walk an added subtree emitting one `+` line per
leaf-like option, values included; empty containers and empty lists emit a
path-only line. -/
def emitAdded (pre : List String) : Doc → List String
  | .map [] => [mkAddLine pre]
  | .map (e :: es) => emitAddedEntries pre (e :: es)
  | .vals [] => [mkAddLine pre]
  | .vals (it :: items) =>
    (it :: items).map (fun a =>
      match a with
      | .t => mkAddLine pre
      | .s v => mkAddLine (pre ++ [v]))
  | .flag => [mkAddLine pre]
  | .str v => [mkAddLine (pre ++ [v])]

/-- The per-key loop of `_emit_added_leaves`: mappings and lists recurse
(`isinstance(v, (dict, list))`), flags emit a path-only line, scalars a
value-suffixed line. -/
def emitAddedEntries (pre : List String) : Entries → List String
  | [] => []
  | (k, .map es) :: rest =>
    emitAdded (pre ++ [k]) (.map es) ++ emitAddedEntries pre rest
  | (k, .vals l) :: rest =>
    emitAdded (pre ++ [k]) (.vals l) ++ emitAddedEntries pre rest
  | (k, .flag) :: rest => [mkAddLine (pre ++ [k])] ++ emitAddedEntries pre rest
  | (k, .str s) :: rest =>
    [mkAddLine (pre ++ [k, s])] ++ emitAddedEntries pre rest

end

/-- The add branch of `_diff` for a leaf value (`a is None`, `b` not a
mapping): one `+` line per list element (`True` elements path-only), a
path-only line for a flag, a value-suffixed line for a scalar.  The mapping
branch is unreachable (guarded earlier in `_diff`). -/
def addLeafLines (pre : List String) : Doc → List String
  | .vals items =>
    items.map (fun a =>
      match a with
      | .t => mkAddLine pre
      | .s v => mkAddLine (pre ++ [v]))
  | .flag => [mkAddLine pre]
  | .str v => [mkAddLine (pre ++ [v])]
  | .map _ => []

/-- The flattened removals when `_diff` replaces a mapping by a leaf: for
each child key, `_diff(prefix+[k], a[k], None)` -- a full leaf walk for
mapping children, a path-only `-` line otherwise. -/
def removedChildLines (pre : List String) : Entries → List String
  | [] => []
  | (k, .map es) :: rest =>
    emitRemoved (pre ++ [k]) (.map es) ++ removedChildLines pre rest
  | (k, .flag) :: rest => [mkDelLine (pre ++ [k])] ++ removedChildLines pre rest
  | (k, .str _) :: rest => [mkDelLine (pre ++ [k])] ++ removedChildLines pre rest
  | (k, .vals _) :: rest => [mkDelLine (pre ++ [k])] ++ removedChildLines pre rest

/-- The flattened additions when `_diff` replaces a leaf by a mapping: for
each child key, `_diff(prefix+[k], None, b[k])`. -/
def addedChildLines (pre : List String) : Entries → List String
  | [] => []
  | (k, .map es) :: rest =>
    emitAdded (pre ++ [k]) (.map es) ++ addedChildLines pre rest
  | (k, .flag) :: rest =>
    addLeafLines (pre ++ [k]) .flag ++ addedChildLines pre rest
  | (k, .str s) :: rest =>
    addLeafLines (pre ++ [k]) (.str s) ++ addedChildLines pre rest
  | (k, .vals l) :: rest =>
    addLeafLines (pre ++ [k]) (.vals l) ++ addedChildLines pre rest

/-- `_emit_leaf` inside `_diff`'s changed-value branch: one signed line per
list element (`str(item)`, so `True` elements render as the token `True`),
a path-only line for a flag, a value-suffixed line for a scalar. -/
def changedLeafLines (sign : String) (pre : List String) : Doc → List String
  | .vals items => items.map (fun a => sign ++ " " ++ joinTok (pre ++ [atomStr a]))
  | .flag => [sign ++ " " ++ joinTok pre]
  | .str v => [sign ++ " " ++ joinTok (pre ++ [v])]
  | .map _ => [sign ++ " " ++ joinTok (pre ++ [docStr (.map [])])]

/-- Python `==` between two non-mapping document leaves (`a != b` in
`_diff`): equal only when of the same kind with equal payloads. -/
def leafEqB : Doc → Doc → Bool
  | .flag, .flag => true
  | .str a, .str b => a == b
  | .vals a, .vals b => a == b
  | _, _ => false

mutual

/-- `_diff(prefix, a, b)`: recursive structural diff of two optional
document values, emitting signed lines.  Branches mirror the source in
order: mapping/mapping recursion over the sorted key union; mapping replaced
by `None` (full removal walk) or by a leaf (flattened child removals, then
the leaf addition); leaf/`None` replaced by a mapping (full addition walk or
flattened child additions); leaf additions; leaf removals (path-only); and
changed leaves (both old and new emitted). -/
def diff (pre : List String) : Option Doc → Option Doc → List String
  | some (.map ea), some (.map eb) => unionDiff pre ea eb
  | some (.map ea), none => emitRemoved pre (.map ea)
  | some (.map ea), some bl => removedChildLines pre ea ++ addLeafLines pre bl
  | none, some (.map eb) => emitAdded pre (.map eb)
  | some _, some (.map eb) => addedChildLines pre eb
  | none, some bl => addLeafLines pre bl
  | some _, none => [mkDelLine pre]
  | none, none => []
  | some al, some bl =>
    if leafEqB al bl then []
    else changedLeafLines "-" pre al ++ changedLeafLines "+" pre bl
termination_by a b => sizeOf a + sizeOf b

/-- The per-key loop `for k in sorted(set(a) | set(b))` of `_diff` on two
canonically sorted entry lists: a sorted walk pairing equal keys. -/
def unionDiff (pre : List String) : Entries → Entries → List String
  | [], [] => []
  | [], (k, v) :: r => diff (pre ++ [k]) none (some v) ++ unionDiff pre [] r
  | (k, v) :: l, [] => diff (pre ++ [k]) (some v) none ++ unionDiff pre l []
  | (k1, v1) :: l, (k2, v2) :: r =>
    if strLt k1 k2 then
      diff (pre ++ [k1]) (some v1) none ++ unionDiff pre l ((k2, v2) :: r)
    else if strLt k2 k1 then
      diff (pre ++ [k2]) none (some v2) ++ unionDiff pre ((k1, v1) :: l) r
    else
      diff (pre ++ [k1]) (some v1) (some v2) ++ unionDiff pre l r
termination_by l r => sizeOf l + sizeOf r

end

/-- The configuration-store state: the persisted committed document
(`committed_base`), the mutable working copy of committed
(`committed_working`), and the candidate (`candidate_config`), all top-level
mappings. -/
structure Store where
  base : Entries
  working : Entries
  cand : Entries

/-- The `commit` branch of `_process_input_line`: the new committed document
is the merge of the working copy and the candidate; the diff against the
prior committed document is computed (for script selection and reporting);
then committed, working and candidate are reset.  Returns the new store and
the computed diff lines (persistence and script execution are external
side effects outside the store model). -/
def commitStep (s : Store) : Store × List String :=
  let n := mergeEntries s.working s.cand
  ({ base := n, working := n, cand := [] },
   diff [] (some (.map s.base)) (some (.map n)))

/-- `_get_nested_value`: walk keys, returning `{}` when a key is missing or
a non-mapping is entered. -/
def getNested : Doc → List String → Doc
  | cur, [] => cur
  | .map es, k :: p =>
    (match alookup es k with
     | some v => getNested v p
     | none => .map [])
  | _, _ :: _ => .map []

/-- Strict nested lookup in a document: `some` exactly when every key on the
path exists through mappings (used to state that a delete removed a path
entirely, as opposed to `_get_nested_value`'s `{}` sentinel). -/
def lookupDoc : Doc → List String → Option Doc
  | d, [] => some d
  | .map es, k :: p =>
    (match alookup es k with
     | some v => lookupDoc v p
     | none => none)
  | _, _ :: _ => none

/-- `if existing == {}: existing = None` in `_apply_set` / `_apply_delete`. -/
def noneIfEmptyMap (d : Doc) : Option Doc :=
  match d with
  | .map [] => none
  | d => some d

/-- Update key `k` in a mapping, in place when present (Python dict update
keeps the key's position), appended otherwise. -/
def assocSet (es : Entries) (k : String) (v : Doc) : Entries :=
  match es with
  | [] => [(k, v)]
  | (k', v') :: rest => if k' = k then (k, v) :: rest else (k', v') :: assocSet rest k v

/-- `_set_nested_value`: create/update a nested mapping so that
`root[keys...] = value`, overwriting missing or non-mapping intermediates
with fresh mappings; no-op on an empty key list. -/
def setNestedE (es : Entries) : List String → Doc → Entries
  | [], _ => es
  | [k], v => assocSet es k v
  | k :: k2 :: ks, v =>
    let node : Entries :=
      match alookup es k with
      | some (.map ns) => ns
      | _ => []
    assocSet es k (.map (setNestedE node (k2 :: ks) v))

/-- `_delete_nested_value`: delete the nested value at `keys` if present,
without pruning parents; no-op when the path is absent, passes through
non-mapping intermediates unchanged. -/
def delNestedE (es : Entries) : List String → Entries
  | [] => es
  | [k] => es.filter (fun e => e.1 ≠ k)
  | k :: k2 :: ks =>
    match alookup es k with
    | some (.map ns) => assocSet es k (.map (delNestedE ns (k2 :: ks)))
    | _ => es

/-- `schema_cursor.get(seg)` during `_apply_set`'s schema walk.  A `none` or
non-mapping cursor yields `none`; at the source this would raise, but the
walk only ever receives consumed path segments, which are child keys of the
schema, so the cursor stays on mappings. -/
def jchildO (cursor : Option JVal) (k : String) : Option JVal :=
  match cursor with
  | some (.dict es) => alookup es k
  | _ => none

/-- `next_schema and next_schema.get("type") == "tagNode"`. -/
def isTagNodeO (o : Option JVal) : Bool :=
  match o with
  | some d => isTagNode d
  | none => false

/-- `next_schema.get("valueMode")` as a string. -/
def jgetStrO (o : Option JVal) (k : String) : Option String :=
  match o with
  | some d => jgetStr d k
  | none => none

/-- `isinstance(terminal_schema, dict) and terminal_schema.get("multi") is
True`. -/
def isMultiSchema (o : Option JVal) : Bool :=
  match o with
  | some (.dict es) =>
    (match alookup es "multi" with
     | some (.bool true) => true
     | _ => false)
  | _ => false

/-- The schema-walking loop of `_apply_set`: accumulate `key_parts`
(inserting each tag node's captured value as an extra path segment unless
the tag node is scalar-mode, in which case a final-segment value becomes the
terminal value), and remember the schema node of the final segment.
Returns `(key_parts, terminal_value, terminal_schema)`; a `none` terminal
value stands for Python's default `True`. -/
def setWalk (cursor : Option JVal) (tagValues : List (String × String)) :
    List String → List String → Option String → Option JVal →
    List String × Option String × Option JVal
  | [], acc, tval, tsch => (acc, tval, tsch)
  | seg :: rest, acc, tval, tsch =>
    let acc2 := acc ++ [seg]
    let next := jchildO cursor seg
    let st :=
      if isTagNodeO next then
        match alookup tagValues seg with
        | some v =>
          if jgetStrO next "valueMode" = some "scalar" then
            if rest = [] then (acc2, some v) else (acc2, tval)
          else (acc2 ++ [v], tval)
        | none => (acc2, tval)
      else (acc2, tval)
    setWalk next tagValues rest st.1 st.2 (if rest = [] then next else tsch)

/-- The seed lookup of `_apply_set`'s multi branch: the candidate's existing
value at the path unless it is `{}`/absent, else the committed working
value, else `None`. -/
def effectiveExisting (cand working : Entries) (kp : List String) :
    Option Doc :=
  match noneIfEmptyMap (getNested (.map cand) kp) with
  | none => noneIfEmptyMap (getNested (.map working) kp)
  | some e => some e

/-- The list lookup of `_apply_delete`: the candidate's value at the base
path when it is a list, else the committed working value when that is a
list, else `None`. -/
def currentListAt (cand working : Entries) (basePath : List String) :
    Option (List VAtom) :=
  match noneIfEmptyMap (getNested (.map cand) basePath) with
  | some (.vals l) => some l
  | _ =>
    match noneIfEmptyMap (getNested (.map working) basePath) with
    | some (.vals l) => some l
    | _ => none

/-- `values = existing if isinstance(existing, list) else ([] if existing is
None else [existing])`.  A pre-existing non-empty mapping would be wrapped
as a one-element list holding a dict, which is outside the
configuration-document shape; that unreachable corner is mapped to `none`
(the caller then leaves the candidate unchanged). -/
def seedValues (existing : Option Doc) : Option (List VAtom) :=
  match existing with
  | none => some []
  | some (.vals l) => some l
  | some .flag => some [VAtom.t]
  | some (.str s) => some [VAtom.s s]
  | some (.map _) => none

/-- `_apply_set(line, consumed)`: strip `"set"` from the consumed path, walk
the schema building `key_parts` and the terminal value, then either append
to the multi-value list at the path (seeding from candidate, else the
committed working copy; duplicate scalars not re-appended) or overwrite the
candidate's nested value. -/
def applySet (schemaSet : Option JVal) (consumed : List String)
    (tagValues : List (String × String)) (cand working : Entries) : Entries :=
  let pathKeys := consumed.filter (fun p => p ≠ "set")
  let r := setWalk schemaSet tagValues pathKeys [] none none
  match r.1 with
  | [] => cand
  | kh :: kt =>
    let kp := kh :: kt
    if isMultiSchema r.2.2 then
      match seedValues (effectiveExisting cand working kp) with
      | some values =>
        let values2 :=
          match r.2.1 with
          | some v => if VAtom.s v ∈ values then values else values ++ [VAtom.s v]
          | none => values
        setNestedE cand kp (.vals values2)
      | none => cand
    else
      setNestedE cand kp (match r.2.1 with | some v => .str v | none => .flag)

/-- The closing branch of `_apply_delete`: delete the full nested path from
both candidate and the committed working copy (no-op on an empty path). -/
def deleteFullPath (cand working : Entries) (kp : List String) :
    Entries × Entries :=
  match kp with
  | [] => (cand, working)
  | _ => (delNestedE cand kp, delNestedE working kp)

/-- `_apply_delete(tokens, resolved_node)`: drop the leading `delete` token;
for a scalar-mode tag node drop the trailing value token; then special-case
a trailing token naming an element of a multi-value list at the parent path
(remove just that element from both candidate and working, deleting the
path entirely when the list empties); otherwise delete the full path from
both.  `resolvedScalarTag` is
`is_tag_node(resolved_node) and resolved_node.get("valueMode") == "scalar"`. -/
def applyDelete (tokens : List String) (resolvedScalarTag : Bool)
    (cand working : Entries) : Entries × Entries :=
  let kp0 := tokens.drop 1
  let kp := if resolvedScalarTag && decide (kp0.length ≥ 2) then kp0.dropLast else kp0
  if kp.length ≥ 2 then
    let basePath := kp.dropLast
    let item := kp.getLastD ""
    match currentListAt cand working basePath with
    | some l =>
      if VAtom.s item ∈ l then
        let nl := l.filter (fun a => a ≠ VAtom.s item)
        if nl ≠ [] then
          (setNestedE cand basePath (.vals nl),
           setNestedE working basePath (.vals nl))
        else
          (delNestedE cand basePath, delNestedE working basePath)
      else deleteFullPath cand working kp
    | none => deleteFullPath cand working kp
  else deleteFullPath cand working kp

/-- Does a diff line carry the `+` sign? -/
def isPlusLine (l : String) : Bool :=
  match l.data with
  | '+' :: _ => true
  | _ => false

/-- The `+` lines of a diff. -/
def plusLines (ls : List String) : List String := ls.filter isPlusLine

mutual

/-- The leaves of a document in depth-first order: pairs of path and
payload, the payload being `none` for a presence flag and `some v` for a
scalar.  Only meaningful on list-free documents (a list leaf, excluded by
`wfDoc`, contributes nothing). -/
def leaves : Doc → List (List String × Option String)
  | .flag => [([], none)]
  | .str v => [([], some v)]
  | .vals _ => []
  | .map es => leavesEntries es
termination_by d => sizeOf d

/-- The leaves of an entry list, each path prefixed by its key. -/
def leavesEntries : Entries → List (List String × Option String)
  | [] => []
  | (k, v) :: rest =>
    (leaves v).map (fun pv => (k :: pv.1, pv.2)) ++ leavesEntries rest
termination_by es => sizeOf es

end

/-- The leaf payload of a document at a path, when the path leads through
mappings to a flag or scalar leaf. -/
def lookupLeaf : Doc → List String → Option (Option String)
  | .flag, [] => some none
  | .str v, [] => some (some v)
  | .vals _, [] => none
  | .map _, [] => none
  | .map es, k :: p =>
    (match alookup es k with
     | some v => lookupLeaf v p
     | none => none)
  | .flag, _ :: _ => none
  | .str _, _ :: _ => none
  | .vals _, _ :: _ => none

/-- The leaves of an optional document. -/
def leavesO : Option Doc → List (List String × Option String)
  | none => []
  | some d => leaves d

/-- The leaf payload of an optional document at a path. -/
def lookupLeafO : Option Doc → List String → Option (Option String)
  | none, _ => none
  | some d, p => lookupLeaf d p

/-- The `+` line a leaf renders to, below an outer prefix. -/
def renderLeafAt (pre : List String) (pv : List String × Option String) :
    String :=
  match pv.2 with
  | none => mkAddLine (pre ++ pv.1)
  | some v => mkAddLine (pre ++ pv.1 ++ [v])

/-- A well-formed diff token: non-empty and space-free, so that joined
diff lines decompose uniquely back into tokens. -/
def goodTok (s : String) : Bool :=
  s ≠ "" && s.data.all (fun c => c ≠ ' ')

/-- All tokens of a path well-formed. -/
def goodToks (l : List String) : Bool := l.all goodTok

mutual

/-- Well-formedness of a configuration value for the merge/diff round-trip:
leaves are flags or space-free non-empty scalars (no list leaves), nested
mappings are non-empty, keys are space-free non-empty and strictly sorted. -/
def wfDoc : Doc → Bool
  | .flag => true
  | .str s => goodTok s
  | .vals _ => false
  | .map es => !es.isEmpty && wfEntries es
termination_by d => sizeOf d

/-- Well-formedness of an entry list (a top-level document may be empty). -/
def wfEntries : Entries → Bool
  | [] => true
  | (k, v) :: rest =>
    goodTok k && wfDoc v && wfEntries rest &&
    (match rest with
     | [] => true
     | (k2, _) :: _ => strLt k k2)
termination_by es => sizeOf es

end

/-- Well-formedness of an optional value. -/
def wfDocO : Option Doc → Bool
  | none => true
  | some d => wfDoc d

/-- Payload well-formedness: flags are trivially good, scalar payloads must
be good tokens. -/
def goodPayload : Option String → Bool
  | none => true
  | some v => goodTok v

/-- The diff-line strings that reference a leaf at path `p` with payload
`w`: the signed path-only lines and, for a scalar, the signed
value-suffixed lines. -/
def leafLineStrings (p : List String) (w : Option String) : List String :=
  match w with
  | none => [mkAddLine p, mkDelLine p]
  | some v =>
    [mkAddLine p, mkDelLine p, mkAddLine (p ++ [v]), mkDelLine (p ++ [v])]

/-- The `address` schema node of the spec's end-to-end scenario: a
scalar-mode multi-value tag node. -/
def addrSchema : JVal :=
  .dict [("type", .str "tagNode"),
         ("valueMode", .str "scalar"),
         ("multi", .bool true)]

/-- The `set` schema subtree `interfaces <tagNode> address <tagNode scalar,
multi>`. -/
def ifaceSchema : JVal :=
  .dict [("interfaces", .dict [("type", .str "tagNode"),
            ("address", addrSchema)])]

/-- A candidate holding two addresses under `interfaces eth0 address`. -/
def candTwoAddrs : Entries :=
  [("interfaces", .map [("eth0", .map [("address",
      .vals [VAtom.s "10.0.0.1/24", VAtom.s "10.0.0.2/24"])])])]

/-- A candidate holding a single address under `interfaces eth0 address`. -/
def candOneAddr : Entries :=
  [("interfaces", .map [("eth0", .map [("address",
      .vals [VAtom.s "10.0.0.1/24"])])])]

end Config

namespace Fmt

/-- Characters of a simple named replacement field.  A brace would be a
nesting error; `!`, `:`, `.` and `[`/`]` introduce conversions, format
specs and attribute/index access, handled separately by `substField`. -/
def okFieldChar (c : Char) : Bool :=
  !(c = '\x7b' || c = '\x7d' || c = ':' || c = '!' || c = '.' ||
    c = '[' || c = ']')

/-- The outcome of formatting: a result string, a raised exception (which
the source's `except` turns into the unmodified template), or a construct
outside the fragment of Python's formatting machinery this embedding
models -- on which the embedding asserts nothing. -/
inductive FieldOut where
  | ok (s : String)
  | err
  | unmodeled
/-- Map a function over the result string of an `ok` outcome. -/
def mapOk (f : String → String) : FieldOut → FieldOut
  | .ok s => .ok (f s)
  | .err => .err
  | .unmodeled => .unmodeled

/-- The string-alignment characters of the format-spec mini-language. -/
def alignChar (c : Char) : Bool := c = '<' || c = '>' || c = '^'

/-- Decimal digits to a number, most significant first. -/
def digitsToNatAux (acc : Nat) : List Char → Nat
  | [] => acc
  | c :: rest => digitsToNatAux (acc * 10 + (c.toNat - 48)) rest

/-- The width of a format spec: a digit run without a leading zero (the
zero flag engages zero-padding semantics outside the modeled fragment);
empty means width 0.  Anything else (sign, `#`, comma, precision, type
code) is unmodeled. -/
def parseWidth (cs : List Char) : Option Nat :=
  match cs with
  | [] => some 0
  | c :: rest =>
    if !(c :: rest).all Char.isDigit then none
    else if c = '0' then none
    else some (digitsToNatAux 0 (c :: rest))

/-- `format(v, spec)` on a string value: pad `v` with `fill` to `width`
according to the alignment (`<` left, the default for strings; `>` right;
`^` centered with the extra fill on the right, as CPython does). -/
def padTo (fill alignC : Char) (width : Nat) (v : String) : String :=
  if width ≤ v.data.length then v
  else
    if alignC = '>' then
      String.mk (List.replicate (width - v.data.length) fill) ++ v
    else if alignC = '^' then
      String.mk (List.replicate ((width - v.data.length) / 2) fill) ++ v ++
        String.mk (List.replicate ((width - v.data.length) -
          (width - v.data.length) / 2) fill)
    else v ++ String.mk (List.replicate (width - v.data.length) fill)

/-- `format(v, spec)` for a string value `v` on the modeled fragment of the
format-spec mini-language: an optional fill-and-align (or bare align), then
an optional width.  An empty spec is the identity, as in Python.  `none`
means the spec is outside the modeled fragment, not that it errors. -/
def applySpec (spec : List Char) (v : String) : Option String :=
  match spec with
  | [] => some v
  | c1 :: c2 :: rest =>
    if alignChar c2 then (parseWidth rest).map (fun w => padTo c1 c2 w v)
    else if alignChar c1 then
      (parseWidth (c2 :: rest)).map (fun w => padTo ' ' c1 w v)
    else (parseWidth (c1 :: c2 :: rest)).map (fun w => padTo ' ' '<' w v)
  | [c1] =>
    if alignChar c1 then some v
    else (parseWidth [c1]).map (fun w => padTo ' ' '<' w v)

/-- Formatting one replacement field of `str.format_map` with the
`_Default` mapping of `_format_command_with_tags` (whose `__missing__`
returns the placeholder wrapped back in braces).  The field splits at the
first `:` into name and format spec.  A field containing `\x7b` nests
replacement fields, and a name using conversion (`!`), attribute (`.`) or
index (`[`/`]`) access engages machinery outside the modeled fragment.  An
empty or all-digit name is auto-numbered or positional and raises
`ValueError` in the source (`format_map` forbids positional fields).
Otherwise the name is looked up -- `_Default` makes every
lookup succeed, a missing key yielding the braced placeholder -- and the
spec is applied to the resulting string. -/
def substField (tags : List (String × String)) (fld : List Char) :
    FieldOut :=
  if fld.any (fun c => c = '\x7b') then .unmodeled
  else
    if (fld.takeWhile (fun c => c ≠ ':')).any
        (fun c => c = '!' || c = '.' || c = '[' || c = ']') then .unmodeled
    else if (fld.takeWhile (fun c => c ≠ ':')).isEmpty ||
        (fld.takeWhile (fun c => c ≠ ':')).all Char.isDigit then .err
    else
      match applySpec ((fld.dropWhile (fun c => c ≠ ':')).drop 1)
        (match CliCommon.alookup tags
            (String.mk (fld.takeWhile (fun c => c ≠ ':'))) with
         | some v => v
         | none =>
           "\x7b" ++ String.mk (fld.takeWhile (fun c => c ≠ ':')) ++
             "\x7d") with
      | some out => .ok out
      | none => .unmodeled

/-- One pass of `command.format_map(_Default(tag_values))` over the
template's characters.  `mode = none` is literal text (doubled braces are
escapes, a lone closing brace raises, an opening brace enters a field);
`mode = some acc` accumulates the current field's characters (reversed)
until the closing brace.  Formatting proceeds left to right, so an `err`
field makes the whole call raise regardless of what follows, and an
unmodeled field makes the whole outcome unmodeled. -/
def fmtRun (tags : List (String × String)) :
    Option (List Char) → List Char → FieldOut
  | none, [] => .ok ""
  | some _, [] => .err
  | none, '\x7b' :: '\x7b' :: rest =>
    mapOk (fun s => "\x7b" ++ s) (fmtRun tags none rest)
  | none, '\x7d' :: '\x7d' :: rest =>
    mapOk (fun s => "\x7d" ++ s) (fmtRun tags none rest)
  | none, '\x7d' :: _ => .err
  | none, '\x7b' :: rest => fmtRun tags (some []) rest
  | none, c :: rest => mapOk (fun s => c.toString ++ s) (fmtRun tags none rest)
  | some acc, '\x7d' :: rest =>
    (match substField tags acc.reverse with
     | .ok repl => mapOk (fun s => repl ++ s) (fmtRun tags none rest)
     | .err => .err
     | .unmodeled => .unmodeled)
  | some acc, c :: rest => fmtRun tags (some (c :: acc)) rest

/-- `_format_command_with_tags(command, tag_values)` (`utils/executor.py`
and `cli_common.py` carry the same function): format the command template,
and on a formatting exception return the template unmodified.  `none` when
the template leaves the modeled fragment; `some r` means the source
function returns `r`. -/
def fmtCommand (command : String) (tags : List (String × String)) :
    Option String :=
  match fmtRun tags none command.data with
  | .ok s => some s
  | .err => some command
  | .unmodeled => none

end Fmt

namespace Validate

/-- The Python values relevant to a validator's result: `None`, a boolean,
a message string, or a tuple of values. -/
inductive PyVal where
  | none : PyVal
  | bool : Bool → PyVal
  | str : String → PyVal
  | tuple : List PyVal → PyVal

/-- Python truthiness (`bool(result)`) on these values. -/
def truthy : PyVal → Bool
  | .none => false
  | .bool b => b
  | .str s => s ≠ ""
  | .tuple es => !es.isEmpty

/-- `str(result[1])` for the message slot of a validator's tuple result.
Validators return strings there; booleans and `None` render as Python
does, nested tuples (never produced by the repository's validators) are
rendered opaquely. -/
def pyStr : PyVal → String
  | .none => "None"
  | .bool true => "True"
  | .bool false => "False"
  | .str s => s
  | .tuple _ => "<tuple>"

/-- `_call_validator(func, value)`: call the validator inside
`try/except` (a raised exception, modeled as `Except.error`, becomes
`(False, "validator exception: ...")`); a tuple result is normalized as
`(bool(result[0]), str(result[1]) or "")` -- note `result[0]` on an
*empty* tuple raises `IndexError` outside the `try`, which propagates;
any other result is normalized by truthiness. -/
def callValidator (f : String → Except String PyVal) (v : String) :
    Except String (Bool × String) :=
  match f v with
  | .error exc => .ok (false, "validator exception: " ++ exc)
  | .ok (.tuple []) => .error "tuple index out of range"
  | .ok (.tuple (x :: rest)) =>
    .ok (truthy x,
      match rest with
      | [] => ""
      | m :: _ => pyStr m)
  | .ok r => .ok (truthy r, if truthy r then "" else "validation failed")

end Validate

namespace CliCommon

/-- On the error branch `resolve_path` always returns `None` as the node,
and the error token is one of the input tokens. -/
theorem resolveFrom_error_none {cur : JVal} {consumed toks : List String}
    {n : Option JVal} {p : List String} {t : String}
    (h : resolveFrom cur consumed toks = (n, p, some t)) :
    n = none ∧ t ∈ toks := by
  induction toks generalizing cur consumed with
  | nil => simp [resolveFrom] at h
  | cons t0 rest ih =>
    rw [resolveFrom] at h
    cases hl : alookup (getChildren cur) t0 with
    | some child =>
      rw [hl] at h
      rcases ih h with ⟨h1, h2⟩
      exact ⟨h1, List.mem_cons_of_mem _ h2⟩
    | none =>
      rw [hl] at h
      by_cases htag : isTagNode cur
      · rw [if_pos htag] at h
        rcases ih h with ⟨h1, h2⟩
        exact ⟨h1, List.mem_cons_of_mem _ h2⟩
      · rw [if_neg htag] at h
        injection h with h1 h23
        injection h23 with h2 h3
        injection h3 with h4
        exact ⟨h1.symm, by rw [← h4]; exact List.mem_cons_self _ _⟩

end CliCommon

/-- C4, counterexample: resolving `["a","x"]` against a tree `{a: {b: ...}}`
descends into `a` successfully (the consumed path is `["a"]`, so a node was
reached) and then stops on the unmatched token `"x"`; the source returns
`None` as the resolved node (cli_common.py line 178), not the last
successfully reached node as the claim states. -/
theorem C4_error_node_counterexample :
    CliCommon.resolvePath CliCommon.containerTree ["a", "x"] =
      (none, ["a"], some "x") := by
  rfl

/-- C4, amended: when `resolve_path` stops on an unmatched token, the
returned error token is that token (one of the input tokens) and the
returned node is always `none`, even after successful descents. -/
theorem C4_error_node_always_none (root : CliCommon.JVal)
    (toks : List String) (n : Option CliCommon.JVal) (p : List String)
    (t : String)
    (h : CliCommon.resolvePath root toks = (n, p, some t)) :
    n = none ∧ t ∈ toks :=
  CliCommon.resolveFrom_error_none h

/-- Witness for C4: the amended theorem applied to the concrete tree
`{a: {b: ...}}` and tokens `["a","x"]`. -/
theorem C4_error_node_always_none_witness :
    (none : Option CliCommon.JVal) = none ∧ "x" ∈ ["a", "x"] :=
  C4_error_node_always_none CliCommon.containerTree ["a", "x"] none ["a"] "x"
    (by rfl)

/-- C5, failing input: against the tree `{a: tagNode {b: tagNode}}`, with the
raw text `"a v b w"` (which tokenizes to `["a","v","b","w"]`) and the target
being the node at path `a b` (the node resolved by those very tokens), the
raw-text-driven query `tag_value_entered_for_node` returns `True` -- on
meeting the non-child token `"v"` while sitting on the non-target tag node
`a` it consumes the token as `a`'s value and keeps walking -- while the
token-driven query `tag_value_entered_for_node_with_tokens` returns `False`,
because it terminates at that first non-child token with the identity test
`current_node is node`.  This contradicts both entry points sharing the same
walking algorithm, which the source's own docstring ("Same as
tag_value_entered_for_node, but driven by a provided token list") and the
spec assert. -/
theorem C5_entered_queries_disagree :
    CliCommon.tokenizeWs "a v b w" = ["a", "v", "b", "w"] ∧
    (CliCommon.resolvePath CliCommon.nestedTagTree
        ["a", "v", "b", "w"]).2.1 = ["a", "b"] ∧
    (CliCommon.resolvePath CliCommon.nestedTagTree
        ["a", "v", "b", "w"]).2.2 = none ∧
    CliCommon.tagValueEnteredForNode CliCommon.nestedTagTree ["a", "b"]
      "a v b w" = true ∧
    CliCommon.tagValueEnteredForNodeWithTokens CliCommon.nestedTagTree
      ["a", "b"] ["a", "v", "b", "w"] = false := by
  refine ⟨by rfl, by rfl, by rfl, by rfl, by rfl⟩

namespace CliCommon

/-- Keys surviving the in-progress-prefix filter were candidate keys. -/
theorem mem_of_mem_filterKeysByPref {keys : List String} {pre k : String}
    (h : k ∈ filterKeysByPref keys pre) : k ∈ keys := by
  unfold filterKeysByPref at h
  split at h
  · exact (List.mem_filter.mp h).1
  · exact h

/-- The tag-node visibility rule of the candidate-key computation: before the
tag node's value is entered only leaf children survive, after it only
non-leaf children survive. -/
theorem completionKeysAt_leaf_split {root node : JVal}
    {consumed pt : List String} (htag : isTagNode node = true) :
    (tagValueEnteredForNodeWithTokens root consumed pt = false →
      ∀ k ∈ completionKeysAt root node consumed pt,
        childTypeIn (getChildren node) k = some "leafNode") ∧
    (tagValueEnteredForNodeWithTokens root consumed pt = true →
      ∀ k ∈ completionKeysAt root node consumed pt,
        childTypeIn (getChildren node) k ≠ some "leafNode") := by
  constructor
  · intro hent k hk
    unfold completionKeysAt at hk
    simp only [htag, hent, if_true, Bool.false_eq_true, if_false] at hk
    have := (List.mem_filter.mp hk).2
    simpa using this
  · intro hent k hk
    unfold completionKeysAt at hk
    simp only [htag, hent, if_true] at hk
    have := (List.mem_filter.mp hk).2
    simpa using this

end CliCommon

/-- C8: for every tree and input text whose complete path tokens resolve
(without error) to a tag node, the completion candidate keys are filtered by
the tag-node visibility rule, where "the value has been entered" is judged
by the token-driven query over the path tokens (the in-progress prefix
excluded): before the value is entered every candidate key is a leaf child
(all non-leaf children are excluded even if declared), and after it no
candidate key is a leaf child. -/
theorem C8_completion_visibility (root : CliCommon.JVal) (raw : String)
    (node : CliCommon.JVal) (pre : String) (ends : Bool) (keys : List String)
    (h : CliCommon.getCompletionContext root raw = (some node, pre, ends, keys))
    (htag : CliCommon.isTagNode node = true) :
    (CliCommon.tagValueEnteredForNodeWithTokens root
        (CliCommon.resolvePath root (CliCommon.parseInputTokens raw).1).2.1
        (CliCommon.parseInputTokens raw).1 = false →
      ∀ k ∈ keys,
        CliCommon.childTypeIn (CliCommon.getChildren node) k = some "leafNode") ∧
    (CliCommon.tagValueEnteredForNodeWithTokens root
        (CliCommon.resolvePath root (CliCommon.parseInputTokens raw).1).2.1
        (CliCommon.parseInputTokens raw).1 = true →
      ∀ k ∈ keys,
        CliCommon.childTypeIn (CliCommon.getChildren node) k ≠ some "leafNode") := by
  simp only [CliCommon.getCompletionContext] at h
  cases hr : (CliCommon.resolvePath root (CliCommon.parseInputTokens raw).1).1 with
  | none => rw [hr] at h; simp at h
  | some n' =>
    rw [hr] at h
    cases he : CliCommon.errTruthy
        (CliCommon.resolvePath root (CliCommon.parseInputTokens raw).1).2.2 with
    | true => simp [he] at h
    | false =>
      simp only [he, Bool.false_eq_true, if_false] at h
      cases hend : (CliCommon.parseInputTokens raw).2.1 with
      | true =>
        simp only [hend, if_true] at h
        have hn : n' = node := by simpa using congrArg (fun x => x.1) h
        have hk : keys = CliCommon.completionKeysAt root n'
            (CliCommon.resolvePath root (CliCommon.parseInputTokens raw).1).2.1
            (CliCommon.parseInputTokens raw).1 := by
          simpa using (congrArg (fun x => x.2.2.2) h).symm
        subst hn
        refine ⟨fun hent k hkm => ?_, fun hent k hkm => ?_⟩
        · rw [hk] at hkm
          exact (CliCommon.completionKeysAt_leaf_split htag).1 hent k hkm
        · rw [hk] at hkm
          exact (CliCommon.completionKeysAt_leaf_split htag).2 hent k hkm
      | false =>
        simp only [hend, Bool.false_eq_true, if_false] at h
        have hn : n' = node := by simpa using congrArg (fun x => x.1) h
        have hk : keys = CliCommon.filterKeysByPref
            (CliCommon.completionKeysAt root n'
              (CliCommon.resolvePath root (CliCommon.parseInputTokens raw).1).2.1
              (CliCommon.parseInputTokens raw).1)
            (CliCommon.parseInputTokens raw).2.2 := by
          simpa using (congrArg (fun x => x.2.2.2) h).symm
        subst hn
        refine ⟨fun hent k hkm => ?_, fun hent k hkm => ?_⟩
        · rw [hk] at hkm
          exact (CliCommon.completionKeysAt_leaf_split htag).1 hent k
            (CliCommon.mem_of_mem_filterKeysByPref hkm)
        · rw [hk] at hkm
          exact (CliCommon.completionKeysAt_leaf_split htag).2 hent k
            (CliCommon.mem_of_mem_filterKeysByPref hkm)

/-- Witness for C8: the completion-visibility theorem applied to the tree
where `route` declares leaf child `summary` and non-leaf child `test`, on
the input `"show ip route "` (value not yet entered: the candidate keys are
`["summary"]`, all leaf children). -/
theorem C8_completion_visibility_witness :
    (CliCommon.tagValueEnteredForNodeWithTokens CliCommon.opTreeMixed
        (CliCommon.resolvePath CliCommon.opTreeMixed
          (CliCommon.parseInputTokens "show ip route ").1).2.1
        (CliCommon.parseInputTokens "show ip route ").1 = false →
      ∀ k ∈ ["summary"],
        CliCommon.childTypeIn (CliCommon.getChildren CliCommon.routeNodeMixed) k =
          some "leafNode") ∧
    (CliCommon.tagValueEnteredForNodeWithTokens CliCommon.opTreeMixed
        (CliCommon.resolvePath CliCommon.opTreeMixed
          (CliCommon.parseInputTokens "show ip route ").1).2.1
        (CliCommon.parseInputTokens "show ip route ").1 = true →
      ∀ k ∈ ["summary"],
        CliCommon.childTypeIn (CliCommon.getChildren CliCommon.routeNodeMixed) k ≠
          some "leafNode") :=
  C8_completion_visibility CliCommon.opTreeMixed "show ip route "
    CliCommon.routeNodeMixed "" true ["summary"] (by rfl) (by rfl)

namespace Config

open CliCommon

/-- Merging a document with an empty candidate leaves it unchanged. -/
theorem mergeEntries_nil (l : Entries) : mergeEntries l [] = l := by
  cases l with
  | nil => simp [mergeEntries]
  | cons a l => simp [mergeEntries]

/-- `charsLt` is irreflexive. -/
theorem charsLt_irrefl (cs : List Char) : charsLt cs cs = false := by
  induction cs with
  | nil => rfl
  | cons a as ih => simp [charsLt, ih]

/-- `strLt` is irreflexive. -/
theorem strLt_irrefl (a : String) : strLt a a = false :=
  charsLt_irrefl a.data

/-- `charsLt` is asymmetric. -/
theorem charsLt_asymm : ∀ (a b : List Char),
    charsLt a b = true → charsLt b a = false := by
  intro a
  induction a with
  | nil =>
    intro b hab
    cases b with
    | nil => simp [charsLt] at hab
    | cons y ys => simp [charsLt]
  | cons x xs ih =>
    intro b hab
    cases b with
    | nil => simp [charsLt] at hab
    | cons y ys =>
      rcases lt_trichotomy x y with h | h | h
      · simp [charsLt, h, asymm h]
      · subst h
        simp only [charsLt, lt_irrefl, if_false] at hab ⊢
        exact ih ys hab
      · simp [charsLt, h, asymm h] at hab

/-- Unrelated character lists are equal. -/
theorem charsLt_conn : ∀ (a b : List Char),
    charsLt a b = false → charsLt b a = false → a = b := by
  intro a
  induction a with
  | nil =>
    intro b hab _
    cases b with
    | nil => rfl
    | cons y ys => simp [charsLt] at hab
  | cons x xs ih =>
    intro b hab hba
    cases b with
    | nil => simp [charsLt] at hba
    | cons y ys =>
      rcases lt_trichotomy x y with h | h | h
      · simp [charsLt, h] at hab
      · subst h
        simp only [charsLt, lt_irrefl, if_false] at hab hba
        rw [ih ys hab hba]
      · simp [charsLt, h] at hba

/-- `charsLt` is transitive. -/
theorem charsLt_trans : ∀ (a b c : List Char),
    charsLt a b = true → charsLt b c = true → charsLt a c = true := by
  intro a
  induction a with
  | nil =>
    intro b c hab hbc
    cases c with
    | nil =>
      cases b with
      | nil => simp [charsLt] at hab
      | cons y ys => simp [charsLt] at hbc
    | cons z zs => simp [charsLt]
  | cons x xs ih =>
    intro b c hab hbc
    cases b with
    | nil => simp [charsLt] at hab
    | cons y ys =>
      cases c with
      | nil => simp [charsLt] at hbc
      | cons z zs =>
        rcases lt_trichotomy x y with hxy | hxy | hxy
        · rcases lt_trichotomy y z with hyz | hyz | hyz
          · simp [charsLt, lt_trans hxy hyz]
          · subst hyz
            simp [charsLt, hxy]
          · simp [charsLt, hyz, asymm hyz] at hbc
        · subst hxy
          simp only [charsLt, lt_irrefl, if_false] at hab
          rcases lt_trichotomy x z with hxz | hxz | hxz
          · simp [charsLt, hxz]
          · subst hxz
            simp only [charsLt, lt_irrefl, if_false] at hbc ⊢
            exact ih ys zs hab hbc
          · rcases lt_trichotomy x z with h | h | h
            · simp [charsLt, h]
            · exact absurd h (ne_of_gt hxz)
            · simp [charsLt, h, asymm h] at hbc
        · simp [charsLt, hxy, asymm hxy] at hab

/-- `strLt` is transitive. -/
theorem strLt_trans {a b c : String} (hab : strLt a b = true)
    (hbc : strLt b c = true) : strLt a c = true :=
  charsLt_trans a.data b.data c.data hab hbc

/-- Unrelated strings are equal. -/
theorem strLt_conn {a b : String} (hab : strLt a b = false)
    (hba : strLt b a = false) : a = b := by
  have h := charsLt_conn a.data b.data hab hba
  cases a
  cases b
  simp only [String.data] at h
  rw [h]

/-- Strictly smaller strings are distinct. -/
theorem strLt_ne {a b : String} (h : strLt a b = true) : a ≠ b := by
  intro he
  subst he
  rw [strLt_irrefl] at h
  cases h

/-- Destructuring a well-formed entry list. -/
theorem wfEntries_cons {k : String} {v : Doc} {rest : Entries}
    (h : wfEntries ((k, v) :: rest) = true) :
    goodTok k = true ∧ wfDoc v = true ∧ wfEntries rest = true := by
  rw [wfEntries.eq_def] at h
  simp only [Bool.and_eq_true] at h
  exact ⟨h.1.1.1, h.1.1.2, h.1.2⟩

/-- Adjacent keys of a well-formed entry list are strictly sorted. -/
theorem wfEntries_cons_lt {k k2 : String} {v v2 : Doc} {rest : Entries}
    (h : wfEntries ((k, v) :: (k2, v2) :: rest) = true) :
    strLt k k2 = true := by
  rw [wfEntries.eq_def] at h
  simp only [Bool.and_eq_true] at h
  exact h.2

/-- In a well-formed entry list, the head key is below every later key. -/
theorem key_lt_of_mem {k : String} {v : Doc} {rest : Entries}
    (h : wfEntries ((k, v) :: rest) = true) :
    ∀ e ∈ rest, strLt k e.1 = true := by
  induction rest generalizing k v with
  | nil => intro e he; cases he
  | cons e2 rest2 ih =>
    obtain ⟨k2, v2⟩ := e2
    obtain ⟨-, -, hwf2⟩ := wfEntries_cons h
    have hlt := wfEntries_cons_lt h
    intro e he
    rcases List.mem_cons.mp he with he | he
    · subst he
      exact hlt
    · exact strLt_trans hlt (ih hwf2 e he)

/-- A key below every key of a list is absent from it. -/
theorem alookup_none_of_all_lt {l : Entries} {k : String}
    (h : ∀ e ∈ l, strLt k e.1 = true) : alookup l k = none := by
  induction l with
  | nil => rfl
  | cons e rest ih =>
    obtain ⟨k1, v1⟩ := e
    have hne : k1 ≠ k := by
      intro he
      subst he
      have := h (k1, v1) (by simp)
      rw [strLt_irrefl] at this
      cases this
    rw [alookup, if_neg hne]
    exact ih (fun e he => h e (List.mem_cons_of_mem _ he))

/-- Added lines carry the `+` sign. -/
theorem isPlus_mkAddLine (t : List String) :
    isPlusLine (mkAddLine t) = true := rfl

/-- Removed lines do not carry the `+` sign. -/
theorem isPlus_mkDelLine (t : List String) :
    isPlusLine (mkDelLine t) = false := rfl

/-- `plusLines` distributes over concatenation. -/
theorem plusLines_append (a b : List String) :
    plusLines (a ++ b) = plusLines a ++ plusLines b :=
  List.filter_append a b

/-- A block of removal lines contributes no `+` line. -/
theorem plusLines_of_del {ls : List String}
    (h : ∀ l ∈ ls, ∃ t, l = mkDelLine t) : plusLines ls = [] := by
  refine List.filter_eq_nil_iff.mpr (fun l hl => ?_)
  obtain ⟨t, rfl⟩ := h l hl
  rw [isPlus_mkDelLine]
  simp

/-- A block of addition lines is all `+` lines. -/
theorem plusLines_of_add {ls : List String}
    (h : ∀ l ∈ ls, ∃ t, l = mkAddLine t) : plusLines ls = ls := by
  refine List.filter_eq_self.mpr (fun l hl => ?_)
  obtain ⟨t, rfl⟩ := h l hl
  exact isPlus_mkAddLine t

mutual

/-- Every line of the removed-subtree walk is a removal line. -/
theorem emitRemoved_del (pre : List String) (d : Doc) :
    ∀ l ∈ emitRemoved pre d, ∃ t, l = mkDelLine t := by
  cases d with
  | map es =>
    intro l hl
    rw [emitRemoved] at hl
    exact emitRemovedEntries_del pre es l hl
  | flag =>
    intro l hl
    rw [emitRemoved] at hl
    exact ⟨_, List.mem_singleton.mp hl⟩
  | str s =>
    intro l hl
    rw [emitRemoved] at hl
    exact ⟨_, List.mem_singleton.mp hl⟩
  | vals v =>
    intro l hl
    rw [emitRemoved] at hl
    exact ⟨_, List.mem_singleton.mp hl⟩
termination_by sizeOf d

/-- Every line of the removed-entries walk is a removal line. -/
theorem emitRemovedEntries_del (pre : List String) (es : Entries) :
    ∀ l ∈ emitRemovedEntries pre es, ∃ t, l = mkDelLine t := by
  cases es with
  | nil =>
    intro l hl
    rw [emitRemovedEntries] at hl
    cases hl
  | cons e rest =>
    obtain ⟨k, v⟩ := e
    intro l hl
    cases v with
    | map es2 =>
      cases es2 with
      | nil =>
        rw [emitRemovedEntries] at hl
        rcases List.mem_append.mp hl with hl | hl
        · exact ⟨_, List.mem_singleton.mp hl⟩
        · exact emitRemovedEntries_del pre rest l hl
      | cons e2 es3 =>
        rw [emitRemovedEntries] at hl
        rcases List.mem_append.mp hl with hl | hl
        · exact emitRemoved_del (pre ++ [k]) (.map (e2 :: es3)) l hl
        · exact emitRemovedEntries_del pre rest l hl
    | flag =>
      rw [emitRemovedEntries] at hl
      rcases List.mem_append.mp hl with hl | hl
      · exact ⟨_, List.mem_singleton.mp hl⟩
      · exact emitRemovedEntries_del pre rest l hl
    | str s =>
      rw [emitRemovedEntries] at hl
      rcases List.mem_append.mp hl with hl | hl
      · exact ⟨_, List.mem_singleton.mp hl⟩
      · exact emitRemovedEntries_del pre rest l hl
    | vals v2 =>
      rw [emitRemovedEntries] at hl
      rcases List.mem_append.mp hl with hl | hl
      · exact ⟨_, List.mem_singleton.mp hl⟩
      · exact emitRemovedEntries_del pre rest l hl
termination_by sizeOf es

end

/-- Every flattened child-removal line is a removal line. -/
theorem removedChildLines_del (pre : List String) (es : Entries) :
    ∀ l ∈ removedChildLines pre es, ∃ t, l = mkDelLine t := by
  induction es with
  | nil => intro l hl; cases hl
  | cons e rest ih =>
    obtain ⟨k, v⟩ := e
    intro l hl
    cases v with
    | map es2 =>
      rw [removedChildLines] at hl
      rcases List.mem_append.mp hl with hl | hl
      · exact emitRemoved_del (pre ++ [k]) (.map es2) l hl
      · exact ih l hl
    | flag =>
      rw [removedChildLines] at hl
      rcases List.mem_append.mp hl with hl | hl
      · exact ⟨_, List.mem_singleton.mp hl⟩
      · exact ih l hl
    | str s =>
      rw [removedChildLines] at hl
      rcases List.mem_append.mp hl with hl | hl
      · exact ⟨_, List.mem_singleton.mp hl⟩
      · exact ih l hl
    | vals v2 =>
      rw [removedChildLines] at hl
      rcases List.mem_append.mp hl with hl | hl
      · exact ⟨_, List.mem_singleton.mp hl⟩
      · exact ih l hl

/-- Every changed-leaf line with the `-` sign is a removal line. -/
theorem changedLeafLines_del (pre : List String) (d : Doc) :
    ∀ l ∈ changedLeafLines "-" pre d, ∃ t, l = mkDelLine t := by
  cases d with
  | vals items =>
    intro l hl
    rw [changedLeafLines] at hl
    obtain ⟨a, -, rfl⟩ := List.mem_map.mp hl
    exact ⟨pre ++ [atomStr a], rfl⟩
  | flag => intro l hl; exact ⟨pre, List.mem_singleton.mp hl⟩
  | str v => intro l hl; exact ⟨pre ++ [v], List.mem_singleton.mp hl⟩
  | map es => intro l hl; exact ⟨pre ++ [docStr (.map [])], List.mem_singleton.mp hl⟩

/-- Prefixing a leaf's path commutes with prefixing the render position. -/
theorem renderLeafAt_cons (pre : List String) (k : String)
    (pv : List String × Option String) :
    renderLeafAt pre (k :: pv.1, pv.2) = renderLeafAt (pre ++ [k]) pv := by
  obtain ⟨p, w⟩ := pv
  cases w with
  | none => simp [renderLeafAt]
  | some v => simp [renderLeafAt]

mutual

/-- `_emit_added_leaves` on a well-formed value renders exactly its
leaves, one `+` line each, in depth-first order. -/
theorem emitAdded_eq : ∀ (pre : List String) (d : Doc), wfDoc d = true →
    emitAdded pre d = (leaves d).map (renderLeafAt pre)
  | _, .map [], h => by rw [wfDoc] at h; simp at h
  | pre, .map (e :: es2), h => by
    rw [wfDoc] at h
    simp only [Bool.and_eq_true] at h
    rw [emitAdded, leaves]
    exact emitAddedEntries_eq pre (e :: es2) h.2
  | pre, .flag, _ => by simp [emitAdded, leaves, renderLeafAt]
  | pre, .str v, _ => by simp [emitAdded, leaves, renderLeafAt]
  | _, .vals v, h => by rw [wfDoc] at h; cases h
termination_by _ d => sizeOf d

/-- The entries version of `emitAdded_eq`. -/
theorem emitAddedEntries_eq : ∀ (pre : List String) (es : Entries),
    wfEntries es = true →
    emitAddedEntries pre es = (leavesEntries es).map (renderLeafAt pre)
  | _, [], _ => by simp [emitAddedEntries, leavesEntries]
  | pre, (k, v) :: rest, h => by
    obtain ⟨-, hv, hrest⟩ := wfEntries_cons h
    have hmapeq : ((leaves v).map (fun pv => (k :: pv.1, pv.2))).map
          (renderLeafAt pre) =
        (leaves v).map (renderLeafAt (pre ++ [k])) := by
      rw [List.map_map]
      exact List.map_congr_left (fun pv _ => renderLeafAt_cons pre k pv)
    have htail := emitAddedEntries_eq pre rest hrest
    cases v with
    | map es2 =>
      rw [emitAddedEntries, leavesEntries, List.map_append, htail, hmapeq]
      rw [emitAdded_eq (pre ++ [k]) (.map es2) hv]
    | flag =>
      rw [emitAddedEntries, leavesEntries, List.map_append, htail, hmapeq]
      simp [leaves, renderLeafAt]
    | str s =>
      rw [emitAddedEntries, leavesEntries, List.map_append, htail, hmapeq]
      simp [leaves, renderLeafAt]
    | vals v2 => rw [wfDoc] at hv; cases hv
termination_by _ es => sizeOf es

end

/-- The flattened child-additions of a well-formed entry list render
exactly its leaves. -/
theorem addedChildLines_eq (pre : List String) (es : Entries)
    (h : wfEntries es = true) :
    addedChildLines pre es = (leavesEntries es).map (renderLeafAt pre) := by
  induction es with
  | nil => simp [addedChildLines, leavesEntries]
  | cons e rest ih =>
    obtain ⟨k, v⟩ := e
    obtain ⟨-, hv, hrest⟩ := wfEntries_cons h
    have hmapeq : ((leaves v).map (fun pv => (k :: pv.1, pv.2))).map
          (renderLeafAt pre) =
        (leaves v).map (renderLeafAt (pre ++ [k])) := by
      rw [List.map_map]
      exact List.map_congr_left (fun pv _ => renderLeafAt_cons pre k pv)
    cases v with
    | map es2 =>
      rw [addedChildLines, leavesEntries, List.map_append, ih hrest, hmapeq]
      rw [emitAdded_eq (pre ++ [k]) (.map es2) hv]
    | flag =>
      rw [addedChildLines, leavesEntries, List.map_append, ih hrest, hmapeq]
      simp [addLeafLines, leaves, renderLeafAt]
    | str s =>
      rw [addedChildLines, leavesEntries, List.map_append, ih hrest, hmapeq]
      simp [addLeafLines, leaves, renderLeafAt]
    | vals v2 => rw [wfDoc] at hv; cases hv

/-- Every leaf path of an entry list starts with one of its keys. -/
theorem leavesEntries_mem_head (es : Entries) :
    ∀ pv ∈ leavesEntries es,
      ∃ kk pp, pv.1 = kk :: pp ∧ kk ∈ es.map Prod.fst := by
  induction es with
  | nil => intro pv h; rw [leavesEntries] at h; cases h
  | cons e rest ih =>
    obtain ⟨k, v⟩ := e
    intro pv h
    rw [leavesEntries] at h
    rcases List.mem_append.mp h with h | h
    · obtain ⟨⟨p, w⟩, -, rfl⟩ := List.mem_map.mp h
      exact ⟨k, p, rfl, by simp⟩
    · obtain ⟨kk, pp, h1, h2⟩ := ih pv h
      exact ⟨kk, pp, h1, by simp [h2]⟩

mutual

/-- Looking up a leaf of a well-formed document finds its payload. -/
theorem lookupLeaf_self : ∀ (d : Doc), wfDoc d = true →
    ∀ pv ∈ leaves d, lookupLeaf d pv.1 = some pv.2
  | .flag, _ => by
    intro pv hpv
    rw [leaves] at hpv
    rw [List.mem_singleton.mp hpv]
    rfl
  | .str v, _ => by
    intro pv hpv
    rw [leaves] at hpv
    rw [List.mem_singleton.mp hpv]
    rfl
  | .vals v, h => by rw [wfDoc] at h; cases h
  | .map es, h => by
    intro pv hpv
    rw [leaves] at hpv
    rw [wfDoc] at h
    simp only [Bool.and_eq_true] at h
    exact lookupLeaf_self_entries es h.2 pv hpv
termination_by d => sizeOf d

/-- The entries version of `lookupLeaf_self`. -/
theorem lookupLeaf_self_entries : ∀ (es : Entries), wfEntries es = true →
    ∀ pv ∈ leavesEntries es, lookupLeaf (.map es) pv.1 = some pv.2
  | [], _ => by
    intro pv hpv
    rw [leavesEntries] at hpv
    cases hpv
  | (k, v) :: rest, h => by
    obtain ⟨-, hv, hrest⟩ := wfEntries_cons h
    intro pv hpv
    rw [leavesEntries] at hpv
    rcases List.mem_append.mp hpv with hpv | hpv
    · obtain ⟨⟨p, w⟩, hmem, rfl⟩ := List.mem_map.mp hpv
      have := lookupLeaf_self v hv (p, w) hmem
      simp only [lookupLeaf, alookup, if_pos rfl]
      exact this
    · obtain ⟨kk, pp, hpath, hkk⟩ := leavesEntries_mem_head rest pv hpv
      have hne : k ≠ kk := by
        obtain ⟨⟨kk2, v2⟩, hm2, hk2⟩ := List.mem_map.mp hkk
        have := key_lt_of_mem h (kk2, v2) hm2
        rw [hk2] at this
        exact strLt_ne this
      have htail := lookupLeaf_self_entries rest hrest pv hpv
      rw [hpath] at htail ⊢
      simp only [lookupLeaf, alookup, if_neg hne] at htail ⊢
      exact htail
termination_by es => sizeOf es

end

/-- Filtering a mapped list filters the preimages. -/
theorem filter_map_comm {α β : Type} (f : α → β) (p : β → Bool)
    (l : List α) :
    (l.map f).filter p = (l.filter (fun x => p (f x))).map f := by
  induction l with
  | nil => rfl
  | cons x xs ih =>
    by_cases hp : p (f x)
    · simp [hp, ih]
    · simp [hp, ih]

/-- Extracting the entries of a well-formed mapping. -/
theorem wfDoc_map {es : Entries} (h : wfDoc (.map es) = true) :
    wfEntries es = true := by
  rw [wfDoc] at h
  simp only [Bool.and_eq_true] at h
  exact h.2

/-- Beneath a mapping, a leaf lookup through the head key reads the head
value. -/
theorem lookupLeaf_cons_eq (k : String) (v : Doc) (l : Entries)
    (p : List String) :
    lookupLeaf (.map ((k, v) :: l)) (k :: p) = lookupLeaf v p := by
  simp [lookupLeaf, alookup]

/-- Beneath a mapping, a leaf lookup skips a non-matching head key. -/
theorem lookupLeaf_cons_ne {k kk : String} (v : Doc) (l : Entries)
    (p : List String) (hne : k ≠ kk) :
    lookupLeaf (.map ((k, v) :: l)) (kk :: p) =
      lookupLeaf (.map l) (kk :: p) := by
  simp [lookupLeaf, alookup, if_neg hne]

/-- A leaf lookup into an absent key yields nothing. -/
theorem lookupLeaf_none_of_all_lt {l : Entries} {kk : String}
    (p : List String) (h : ∀ e ∈ l, strLt kk e.1 = true) :
    lookupLeaf (.map l) (kk :: p) = none := by
  simp [lookupLeaf, alookup_none_of_all_lt h]

/-- A leaf lookup through a non-mapping document with a non-empty path
yields nothing. -/
theorem lookupLeaf_leaf_cons (d : Doc) (hd : ∀ es, d ≠ .map es)
    (kk : String) (p : List String) : lookupLeaf d (kk :: p) = none := by
  cases d with
  | map es => exact absurd rfl (hd es)
  | flag => rfl
  | str s => rfl
  | vals l => rfl

/-- The chunk of rendered, filtered leaves below one key. -/
theorem leaves_chunk (pre : List String) (k : String) (v : Doc)
    (q : List String × Option String → Bool) :
    (((leaves v).map (fun pv => (k :: pv.1, pv.2))).filter q).map
        (renderLeafAt pre) =
      ((leaves v).filter (fun pv => q (k :: pv.1, pv.2))).map
        (renderLeafAt (pre ++ [k])) := by
  rw [filter_map_comm, List.map_map]
  exact List.map_congr_left (fun pv _ => renderLeafAt_cons pre k pv)

/-- `none` never equals a `some` payload under boolean equality. -/
theorem optBeq_none_some (w : Option String) :
    ((none : Option (Option String)) == some w) = false := rfl

/-- Every line of `_diff` against a missing right side is a removal line. -/
theorem diff_none_right_del (pre : List String) (v : Doc) :
    ∀ l ∈ diff pre (some v) none, ∃ t, l = mkDelLine t := by
  cases v with
  | map es =>
    intro l hl
    rw [show diff pre (some (.map es)) none = emitRemoved pre (.map es) from
      by simp [diff]] at hl
    exact emitRemoved_del pre (.map es) l hl
  | flag =>
    intro l hl
    rw [show diff pre (some .flag) none = [mkDelLine pre] from by
      simp [diff]] at hl
    exact ⟨pre, List.mem_singleton.mp hl⟩
  | str s =>
    intro l hl
    rw [show diff pre (some (.str s)) none = [mkDelLine pre] from by
      simp [diff]] at hl
    exact ⟨pre, List.mem_singleton.mp hl⟩
  | vals l2 =>
    intro l hl
    rw [show diff pre (some (.vals l2)) none = [mkDelLine pre] from by
      simp [diff]] at hl
    exact ⟨pre, List.mem_singleton.mp hl⟩

/-- A rendered leaf line is an addition line. -/
theorem renderLeafAt_isAdd (pre : List String)
    (pv : List String × Option String) :
    ∃ t, renderLeafAt pre pv = mkAddLine t := by
  obtain ⟨p, w⟩ := pv
  cases w with
  | none => exact ⟨pre ++ p, rfl⟩
  | some v => exact ⟨pre ++ p ++ [v], rfl⟩

/-- Rendered leaf lines pass the `+` filter unchanged. -/
theorem plusLines_render (pre : List String)
    (l : List (List String × Option String)) :
    plusLines (l.map (renderLeafAt pre)) = l.map (renderLeafAt pre) :=
  plusLines_of_add (fun x hx => by
    obtain ⟨pv, -, rfl⟩ := List.mem_map.mp hx
    exact renderLeafAt_isAdd pre pv)

mutual

/-- The `+` lines of `_diff(prefix, a, b)` on well-formed values are
exactly the leaves of `b` whose payload differs from (or is absent in) `a`
at the same path, rendered in depth-first order. -/
theorem plus_diff : ∀ (pre : List String) (a b : Option Doc),
    wfDocO a = true → wfDocO b = true →
    plusLines (diff pre a b) =
      ((leavesO b).filter
        (fun pv => !(lookupLeafO a pv.1 == some pv.2))).map
        (renderLeafAt pre)
  | pre, some (.map ea), some (.map eb), ha, hb => by
    rw [show diff pre (some (.map ea)) (some (.map eb)) =
      unionDiff pre ea eb from by simp [diff]]
    simp only [leavesO, lookupLeafO]
    rw [leaves]
    exact plus_union pre ea eb (wfDoc_map ha) (wfDoc_map hb)
  | pre, some (.map ea), none, _, _ => by
    rw [show diff pre (some (.map ea)) none =
      emitRemoved pre (.map ea) from by simp [diff]]
    rw [plusLines_of_del (emitRemoved_del pre (.map ea))]
    simp [leavesO]
  | pre, some (.map ea), some .flag, _, _ => by
    rw [show diff pre (some (.map ea)) (some .flag) =
      removedChildLines pre ea ++ addLeafLines pre .flag from by simp [diff]]
    rw [plusLines_append, plusLines_of_del (removedChildLines_del pre ea)]
    simp only [leavesO, lookupLeafO]
    rw [leaves]
    simp [addLeafLines, plusLines, isPlusLine, mkAddLine, lookupLeaf,
      renderLeafAt, List.filter]
  | pre, some (.map ea), some (.str s), _, _ => by
    rw [show diff pre (some (.map ea)) (some (.str s)) =
      removedChildLines pre ea ++ addLeafLines pre (.str s) from by
        simp [diff]]
    rw [plusLines_append, plusLines_of_del (removedChildLines_del pre ea)]
    simp only [leavesO, lookupLeafO]
    rw [leaves]
    simp [addLeafLines, plusLines, isPlusLine, mkAddLine, lookupLeaf,
      renderLeafAt, List.filter]
  | _, some (.map _), some (.vals l2), _, hb => by
    rw [wfDocO, wfDoc] at hb
    cases hb
  | pre, none, some (.map eb), _, hb => by
    rw [show diff pre none (some (.map eb)) =
      emitAdded pre (.map eb) from by simp [diff]]
    rw [emitAdded_eq pre (.map eb) hb, plusLines_render]
    simp only [leavesO, lookupLeafO]
    have hf : List.filter
        (fun (pv : List String × Option String) =>
          !((none : Option (Option String)) == some pv.2))
        (leaves (.map eb)) = leaves (.map eb) :=
      List.filter_eq_self.mpr (fun pv _ => rfl)
    rw [hf]
  | pre, some .flag, some (.map eb), _, hb => by
    rw [show diff pre (some .flag) (some (.map eb)) =
      addedChildLines pre eb from by simp [diff]]
    rw [addedChildLines_eq pre eb (wfDoc_map hb), plusLines_render]
    simp only [leavesO, lookupLeafO]
    rw [leaves]
    rw [List.filter_eq_self.mpr (fun pv hpv => by
      obtain ⟨kk, pp, hp, -⟩ := leavesEntries_mem_head eb pv hpv
      rw [hp, lookupLeaf_leaf_cons .flag (by intro es h; cases h) kk pp]
      rfl)]
  | pre, some (.str a), some (.map eb), _, hb => by
    rw [show diff pre (some (.str a)) (some (.map eb)) =
      addedChildLines pre eb from by simp [diff]]
    rw [addedChildLines_eq pre eb (wfDoc_map hb), plusLines_render]
    simp only [leavesO, lookupLeafO]
    rw [leaves]
    rw [List.filter_eq_self.mpr (fun pv hpv => by
      obtain ⟨kk, pp, hp, -⟩ := leavesEntries_mem_head eb pv hpv
      rw [hp, lookupLeaf_leaf_cons (.str a) (by intro es h; cases h) kk pp]
      rfl)]
  | _, some (.vals l1), _, ha, _ => by
    rw [wfDocO, wfDoc] at ha
    cases ha
  | pre, none, some .flag, _, _ => by
    rw [show diff pre none (some .flag) = addLeafLines pre .flag from by
      simp [diff]]
    simp only [leavesO, lookupLeafO]
    rw [leaves]
    simp [addLeafLines, plusLines, isPlusLine, mkAddLine, renderLeafAt,
      List.filter]
  | pre, none, some (.str s), _, _ => by
    rw [show diff pre none (some (.str s)) = addLeafLines pre (.str s) from by
      simp [diff]]
    simp only [leavesO, lookupLeafO]
    rw [leaves]
    simp [addLeafLines, plusLines, isPlusLine, mkAddLine, renderLeafAt,
      List.filter]
  | _, _, some (.vals l2), _, hb => by
    rw [wfDocO, wfDoc] at hb
    cases hb
  | pre, some .flag, none, _, _ => by
    rw [show diff pre (some .flag) none = [mkDelLine pre] from by simp [diff]]
    simp [leavesO, plusLines, isPlus_mkDelLine]
  | pre, some (.str s), none, _, _ => by
    rw [show diff pre (some (.str s)) none = [mkDelLine pre] from by
      simp [diff]]
    simp [leavesO, plusLines, isPlus_mkDelLine]
  | pre, none, none, _, _ => by
    rw [show diff pre none none = [] from by simp [diff]]
    simp [leavesO, plusLines]
  | pre, some .flag, some .flag, _, _ => by
    rw [show diff pre (some .flag) (some .flag) = [] from by
      simp [diff, leafEqB]]
    simp only [leavesO, lookupLeafO]
    rw [leaves]
    simp [plusLines, lookupLeaf, List.filter]
  | pre, some .flag, some (.str s), _, _ => by
    rw [show diff pre (some .flag) (some (.str s)) =
      changedLeafLines "-" pre .flag ++ changedLeafLines "+" pre (.str s)
      from by simp [diff, leafEqB]]
    rw [plusLines_append, plusLines_of_del (changedLeafLines_del pre .flag)]
    simp only [leavesO, lookupLeafO]
    rw [leaves]
    simp [changedLeafLines, plusLines, isPlusLine, mkAddLine, lookupLeaf,
      renderLeafAt, List.filter]
  | pre, some (.str a), some .flag, _, _ => by
    rw [show diff pre (some (.str a)) (some .flag) =
      changedLeafLines "-" pre (.str a) ++ changedLeafLines "+" pre .flag
      from by simp [diff, leafEqB]]
    rw [plusLines_append,
      plusLines_of_del (changedLeafLines_del pre (.str a))]
    simp only [leavesO, lookupLeafO]
    rw [leaves]
    simp [changedLeafLines, plusLines, isPlusLine, mkAddLine, lookupLeaf,
      renderLeafAt, List.filter]
  | pre, some (.str a), some (.str b), _, _ => by
    by_cases hab : a = b
    · subst hab
      rw [show diff pre (some (.str a)) (some (.str a)) = [] from by
        simp [diff, leafEqB]]
      simp only [leavesO, lookupLeafO]
      rw [leaves]
      simp [plusLines, lookupLeaf, List.filter]
    · have hbeq : (a == b) = false := beq_eq_false_iff_ne.mpr hab
      rw [show diff pre (some (.str a)) (some (.str b)) =
        changedLeafLines "-" pre (.str a) ++ changedLeafLines "+" pre (.str b)
        from by simp [diff, leafEqB, hab]]
      rw [plusLines_append,
        plusLines_of_del (changedLeafLines_del pre (.str a))]
      simp only [leavesO, lookupLeafO]
      rw [leaves]
      simp [changedLeafLines, plusLines, isPlusLine, mkAddLine, lookupLeaf,
        renderLeafAt, List.filter, hbeq]
termination_by _ a b => sizeOf a + sizeOf b

/-- The `+` lines of the key-union walk on well-formed sorted entry lists
are exactly the changed or introduced leaves of the right list. -/
theorem plus_union : ∀ (pre : List String) (ea eb : Entries),
    wfEntries ea = true → wfEntries eb = true →
    plusLines (unionDiff pre ea eb) =
      ((leavesEntries eb).filter
        (fun pv => !(lookupLeaf (.map ea) pv.1 == some pv.2))).map
        (renderLeafAt pre)
  | pre, [], [], _, _ => by
    rw [unionDiff]
    simp [leavesEntries, plusLines]
  | pre, [], (k, v) :: r, _, hb => by
    obtain ⟨-, hv, hr⟩ := wfEntries_cons hb
    rw [unionDiff, plusLines_append]
    rw [plus_diff (pre ++ [k]) none (some v) rfl hv]
    rw [plus_union pre [] r (by rw [wfEntries]) hr]
    rw [leavesEntries, List.filter_append, List.map_append]
    congr 1
    rw [leaves_chunk]
    have hL : (leavesO (some v)).filter
        (fun pv => !(lookupLeafO none pv.1 == some pv.2)) = leaves v := by
      simp only [leavesO]
      exact List.filter_eq_self.mpr (fun pv _ => by simp [lookupLeafO])
    have hR : (leaves v).filter
        (fun pv => !(lookupLeaf (.map []) (k :: pv.1) == some pv.2)) =
        leaves v :=
      List.filter_eq_self.mpr (fun pv _ => by
        rw [lookupLeaf_none_of_all_lt pv.1 (fun e he => absurd he
          (List.not_mem_nil e))]
        rfl)
    rw [hL, hR]
  | pre, (k, v) :: l, [], ha, _ => by
    obtain ⟨-, -, hl⟩ := wfEntries_cons ha
    rw [unionDiff, plusLines_append]
    rw [plusLines_of_del (diff_none_right_del (pre ++ [k]) v)]
    rw [plus_union pre l [] hl (by rw [wfEntries])]
    simp [leavesEntries]
  | pre, (k1, v1) :: l, (k2, v2) :: r, ha, hb => by
    obtain ⟨-, hv1, hl⟩ := wfEntries_cons ha
    obtain ⟨-, hv2, hr⟩ := wfEntries_cons hb
    rw [unionDiff]
    by_cases h12 : strLt k1 k2 = true
    · rw [if_pos h12, plusLines_append]
      rw [plusLines_of_del (diff_none_right_del (pre ++ [k1]) v1)]
      rw [plus_union pre l ((k2, v2) :: r) hl hb]
      rw [List.nil_append]
      congr 1
      refine (List.filter_congr (fun pv hpv => ?_)).symm
      obtain ⟨kk, pp, hp, hkk⟩ := leavesEntries_mem_head _ pv hpv
      have hlt : strLt k1 kk = true := by
        rcases List.mem_map.mp hkk with ⟨e, he, hke⟩
        rcases List.mem_cons.mp he with he | he
        · rw [← hke, he]
          exact h12
        · rw [← hke]
          exact strLt_trans h12 (key_lt_of_mem hb e he)
      rw [hp, lookupLeaf_cons_ne v1 l pp (strLt_ne hlt)]
    · by_cases h21 : strLt k2 k1 = true
      · rw [if_neg h12, if_pos h21, plusLines_append]
        rw [plus_diff (pre ++ [k2]) none (some v2) rfl hv2]
        rw [plus_union pre ((k1, v1) :: l) r ha hr]
        rw [leavesEntries, List.filter_append, List.map_append]
        congr 1
        rw [leaves_chunk]
        have hnone : ∀ pp, lookupLeaf (.map ((k1, v1) :: l)) (k2 :: pp) =
            none := fun pp => lookupLeaf_none_of_all_lt pp (by
          intro e he
          rcases List.mem_cons.mp he with he | he
          · rw [he]
            exact h21
          · exact strLt_trans h21 (key_lt_of_mem ha e he))
        have hL : (leavesO (some v2)).filter
            (fun pv => !(lookupLeafO none pv.1 == some pv.2)) =
            leaves v2 := by
          simp only [leavesO]
          exact List.filter_eq_self.mpr (fun pv _ => by simp [lookupLeafO])
        have hR : (leaves v2).filter
            (fun pv => !(lookupLeaf (.map ((k1, v1) :: l)) (k2 :: pv.1) ==
              some pv.2)) = leaves v2 :=
          List.filter_eq_self.mpr (fun pv _ => by rw [hnone pv.1]; rfl)
        rw [hL, hR]
      · have hk : k1 = k2 :=
          strLt_conn (Bool.eq_false_iff.mpr h12) (Bool.eq_false_iff.mpr h21)
        subst hk
        rw [if_neg h12, if_neg h21, plusLines_append]
        rw [plus_diff (pre ++ [k1]) (some v1) (some v2) hv1 hv2]
        rw [plus_union pre l r hl hr]
        rw [leavesEntries, List.filter_append, List.map_append]
        congr 1
        · rw [leaves_chunk]
          congr 1
          exact List.filter_congr (fun pv _ => by
            rw [lookupLeaf_cons_eq k1 v1 l pv.1]
            rfl)
        · congr 1
          refine (List.filter_congr (fun pv hpv => ?_)).symm
          obtain ⟨kk, pp, hp, hkk⟩ := leavesEntries_mem_head _ pv hpv
          have hlt : strLt k1 kk = true := by
            rcases List.mem_map.mp hkk with ⟨e, he, hke⟩
            rw [← hke]
            exact key_lt_of_mem hb e he
          rw [hp, lookupLeaf_cons_ne v1 l pp (strLt_ne hlt)]
termination_by _ ea eb => sizeOf ea + sizeOf eb

end

/-- Strings with equal character lists are equal. -/
theorem str_data_inj {a b : String} (h : a.data = b.data) : a = b := by
  cases a
  cases b
  simp only [String.data] at h
  rw [h]

/-- A well-formed token has a non-empty, space-free character list. -/
theorem goodTok_data {s : String} (h : goodTok s = true) :
    s.data ≠ [] ∧ ' ' ∉ s.data := by
  rw [goodTok, Bool.and_eq_true] at h
  constructor
  · intro hd
    have hs : s = "" := str_data_inj (by simpa using hd)
    rw [hs] at h
    simpa using h.1
  · intro hmem
    have := List.all_eq_true.mp h.2 ' ' hmem
    simp at this

/-- Splitting at the first space is unambiguous for space-free prefixes. -/
theorem append_space_inj : ∀ {a b u v : List Char},
    ' ' ∉ a → ' ' ∉ b → a ++ ' ' :: u = b ++ ' ' :: v → a = b ∧ u = v := by
  intro a
  induction a with
  | nil =>
    intro b u v _ hb h
    cases b with
    | nil => simpa using h
    | cons c bs =>
      rw [List.nil_append, List.cons_append] at h
      injection h with h1 h2
      exact absurd (h1 ▸ List.mem_cons_self c bs) hb
  | cons c as ih =>
    intro b u v ha hb h
    cases b with
    | nil =>
      rw [List.nil_append, List.cons_append] at h
      injection h with h1 h2
      exact absurd (h1.symm ▸ List.mem_cons_self c as) ha
    | cons d bs =>
      rw [List.cons_append, List.cons_append] at h
      injection h with h1 h2
      have ha2 : ' ' ∉ as := fun hm => ha (List.mem_cons_of_mem c hm)
      have hb2 : ' ' ∉ bs := fun hm => hb (List.mem_cons_of_mem d hm)
      obtain ⟨he, hu⟩ := ih ha2 hb2 h2
      exact ⟨by rw [h1, he], hu⟩

/-- The character list of a joined non-singleton token list. -/
theorem joinTok_cons_cons (x y : String) (xs : List String) :
    (joinTok (x :: y :: xs)).data =
      x.data ++ ' ' :: (joinTok (y :: xs)).data := by
  rw [show joinTok (x :: y :: xs) = x ++ " " ++ joinTok (y :: xs) from by
    simp [joinTok]]
  rw [String.data_append, String.data_append, List.append_assoc]
  rfl

/-- A joined well-formed token list is empty only for no tokens. -/
theorem joinTok_data_ne_nil {xs : List String} (hx : goodToks xs = true)
    (hne : xs ≠ []) : (joinTok xs).data ≠ [] := by
  cases xs with
  | nil => exact absurd rfl hne
  | cons x xs2 =>
    have hgx : goodTok x = true := by
      rw [goodToks] at hx
      exact List.all_eq_true.mp hx x (by simp)
    cases xs2 with
    | nil =>
      rw [joinTok]
      exact (goodTok_data hgx).1
    | cons y ys =>
      rw [joinTok_cons_cons]
      intro hd
      rcases List.append_eq_nil.mp hd with ⟨-, h2⟩
      cases h2

/-- Joining well-formed token lists is injective. -/
theorem joinTok_inj : ∀ (xs ys : List String), goodToks xs = true →
    goodToks ys = true → joinTok xs = joinTok ys → xs = ys := by
  intro xs
  induction xs with
  | nil =>
    intro ys _ hy h
    cases ys with
    | nil => rfl
    | cons y ys2 =>
      exact absurd (congrArg String.data h.symm)
        (joinTok_data_ne_nil hy (by simp))
  | cons x xs2 ih =>
    intro ys hx hy h
    have hgx : goodTok x = true := by
      rw [goodToks] at hx
      exact List.all_eq_true.mp hx x (by simp)
    have hx2 : goodToks xs2 = true := by
      rw [goodToks] at hx ⊢
      exact List.all_eq_true.mpr
        (fun t ht => List.all_eq_true.mp hx t (by simp [ht]))
    cases ys with
    | nil =>
      exact absurd (congrArg String.data h)
        (joinTok_data_ne_nil (by rwa [goodToks] at hx ⊢) (by simp))
    | cons y ys2 =>
      have hgy : goodTok y = true := by
        rw [goodToks] at hy
        exact List.all_eq_true.mp hy y (by simp)
      have hy2 : goodToks ys2 = true := by
        rw [goodToks] at hy ⊢
        exact List.all_eq_true.mpr
          (fun t ht => List.all_eq_true.mp hy t (by simp [ht]))
      cases xs2 with
      | nil =>
        cases ys2 with
        | nil =>
          rw [joinTok, joinTok] at h
          rw [h]
        | cons z zs =>
          rw [joinTok] at h
          have hd := congrArg String.data h
          rw [joinTok_cons_cons] at hd
          exact absurd (hd ▸ List.mem_append_right y.data
            (List.mem_cons_self ' ' _)) (goodTok_data hgx).2
      | cons z zs =>
        cases ys2 with
        | nil =>
          rw [show joinTok [y] = y from rfl] at h
          have hd := congrArg String.data h
          rw [joinTok_cons_cons] at hd
          exact absurd (hd ▸ List.mem_append_right x.data
            (List.mem_cons_self ' ' _)) (goodTok_data hgy).2
        | cons t ts =>
          have hd := congrArg String.data h
          rw [joinTok_cons_cons, joinTok_cons_cons] at hd
          obtain ⟨h1, h2⟩ := append_space_inj (goodTok_data hgx).2
            (goodTok_data hgy).2 hd
          have hxy : x = y := str_data_inj h1
          have hrest : z :: zs = t :: ts :=
            ih (t :: ts) hx2 hy2 (str_data_inj h2)
          rw [hxy, hrest]

/-- Addition and removal lines are distinct. -/
theorem mkAddLine_ne_mkDelLine (t1 t2 : List String) :
    mkAddLine t1 ≠ mkDelLine t2 := by
  intro h
  have hd := congrArg String.data h
  rw [mkAddLine, mkDelLine, String.data_append, String.data_append] at hd
  injection hd with h1 _
  cases h1

/-- Addition lines over well-formed tokens are injective in the tokens. -/
theorem mkAddLine_inj {t1 t2 : List String} (h1 : goodToks t1 = true)
    (h2 : goodToks t2 = true) (h : mkAddLine t1 = mkAddLine t2) :
    t1 = t2 := by
  have hd := congrArg String.data h
  rw [mkAddLine, mkAddLine, String.data_append, String.data_append] at hd
  injection hd with ha hd
  injection hd with hb hd
  exact joinTok_inj t1 t2 h1 h2 (str_data_inj hd)

/-- Removal lines over well-formed tokens are injective in the tokens. -/
theorem mkDelLine_inj {t1 t2 : List String} (h1 : goodToks t1 = true)
    (h2 : goodToks t2 = true) (h : mkDelLine t1 = mkDelLine t2) :
    t1 = t2 := by
  have hd := congrArg String.data h
  rw [mkDelLine, mkDelLine, String.data_append, String.data_append] at hd
  injection hd with ha hd
  injection hd with hb hd
  exact joinTok_inj t1 t2 h1 h2 (str_data_inj hd)

/-- A successful lookup returns the value of a stored entry. -/
theorem alookup_mem : ∀ {es : Entries} {k : String} {v : Doc},
    alookup es k = some v → (k, v) ∈ es := by
  intro es
  induction es with
  | nil => intro k v h; cases h
  | cons e rest ih =>
    obtain ⟨k1, v1⟩ := e
    intro k v h
    rw [alookup] at h
    by_cases hk : k1 = k
    · rw [if_pos hk] at h
      injection h with h1
      rw [← hk, ← h1]
      exact List.mem_cons_self _ _
    · rw [if_neg hk] at h
      exact List.mem_cons_of_mem _ (ih h)

/-- Every entry of a well-formed entry list has a well-formed key and
value. -/
theorem wfEntries_all {es : Entries} (h : wfEntries es = true) :
    ∀ e ∈ es, goodTok e.1 = true ∧ wfDoc e.2 = true := by
  induction es with
  | nil => intro e he; cases he
  | cons e2 rest ih =>
    obtain ⟨k, v⟩ := e2
    obtain ⟨hk, hv, hrest⟩ := wfEntries_cons h
    intro e he
    rcases List.mem_cons.mp he with he | he
    · rw [he]
      exact ⟨hk, hv⟩
    · exact ih hrest e he

/-- A leaf looked up in a well-formed document lies on a well-formed path
and has a well-formed payload. -/
theorem lookupLeaf_good : ∀ (p : List String) (d : Doc),
    wfDoc d = true → ∀ {w : Option String}, lookupLeaf d p = some w →
    goodToks p = true ∧ goodPayload w = true := by
  intro p
  induction p with
  | nil =>
    intro d hd w hl
    cases d with
    | flag =>
      rw [lookupLeaf] at hl
      injection hl with hl
      rw [← hl]
      exact ⟨rfl, rfl⟩
    | str v =>
      rw [lookupLeaf] at hl
      injection hl with hl
      rw [← hl]
      exact ⟨rfl, by rw [wfDoc] at hd; exact hd⟩
    | vals l => rw [lookupLeaf] at hl; cases hl
    | map es => rw [lookupLeaf] at hl; cases hl
  | cons k p2 ih =>
    intro d hd w hl
    cases d with
    | flag => rw [lookupLeaf] at hl; cases hl
    | str v => rw [lookupLeaf] at hl; cases hl
    | vals l => rw [lookupLeaf] at hl; cases hl
    | map es =>
      rw [lookupLeaf] at hl
      cases ha : alookup es k with
      | none => rw [ha] at hl; cases hl
      | some v =>
        rw [ha] at hl
        have hmem := alookup_mem ha
        have hkv := wfEntries_all (wfDoc_map hd) (k, v) hmem
        obtain ⟨hp2, hw⟩ := ih v hkv.2 hl
        refine ⟨?_, hw⟩
        rw [goodToks]
        rw [goodToks] at hp2
        simp only [List.all_cons, Bool.and_eq_true]
        exact ⟨hkv.1, hp2⟩

mutual

/-- Every leaf of a well-formed document has a well-formed path and
payload. -/
theorem leaves_good : ∀ (d : Doc), wfDoc d = true →
    ∀ pv ∈ leaves d, goodToks pv.1 = true ∧ goodPayload pv.2 = true
  | .flag, _ => by
    intro pv hpv
    rw [leaves] at hpv
    rw [List.mem_singleton.mp hpv]
    exact ⟨rfl, rfl⟩
  | .str v, hd => by
    intro pv hpv
    rw [leaves] at hpv
    rw [List.mem_singleton.mp hpv]
    refine ⟨rfl, ?_⟩
    rw [wfDoc] at hd
    exact hd
  | .vals l, hd => by rw [wfDoc] at hd; cases hd
  | .map es, hd => by
    intro pv hpv
    rw [leaves] at hpv
    exact leavesEntries_good es (wfDoc_map hd) pv hpv
termination_by d => sizeOf d

/-- The entries version of `leaves_good`. -/
theorem leavesEntries_good : ∀ (es : Entries), wfEntries es = true →
    ∀ pv ∈ leavesEntries es, goodToks pv.1 = true ∧ goodPayload pv.2 = true
  | [], _ => by
    intro pv hpv
    rw [leavesEntries] at hpv
    cases hpv
  | (k, v) :: rest, h => by
    obtain ⟨hk, hv, hrest⟩ := wfEntries_cons h
    intro pv hpv
    rw [leavesEntries] at hpv
    rcases List.mem_append.mp hpv with hpv | hpv
    · obtain ⟨⟨p, w⟩, hmem, rfl⟩ := List.mem_map.mp hpv
      obtain ⟨hp, hw⟩ := leaves_good v hv (p, w) hmem
      refine ⟨?_, hw⟩
      rw [goodToks]
      rw [goodToks] at hp
      simp only [List.all_cons, Bool.and_eq_true]
      exact ⟨hk, hp⟩
    · exact leavesEntries_good rest hrest pv hpv
termination_by es => sizeOf es

end

/-- Prepending a well-formed token preserves token-list well-formedness. -/
theorem goodToks_cons {k : String} {rest : List String}
    (hk : goodTok k = true) (hrest : goodToks rest = true) :
    goodToks (k :: rest) = true := by
  rw [goodToks] at hrest ⊢
  simp only [List.all_cons, Bool.and_eq_true]
  exact ⟨hk, hrest⟩

/-- Appending well-formed token lists preserves well-formedness. -/
theorem goodToks_append {a b : List String} (ha : goodToks a = true)
    (hb : goodToks b = true) : goodToks (a ++ b) = true := by
  rw [goodToks] at ha hb ⊢
  rw [List.all_append, ha, hb]
  rfl

/-- Rendered leaves of a well-formed leaf set are addition lines over
well-formed tokens. -/
theorem renderLeaves_shape (pre : List String)
    {lv : List (List String × Option String)}
    (hgood : ∀ pv ∈ lv, goodToks pv.1 = true ∧ goodPayload pv.2 = true) :
    ∀ x ∈ lv.map (renderLeafAt pre),
      ∃ rest, goodToks rest = true ∧ x = mkAddLine (pre ++ rest) := by
  intro x hx
  obtain ⟨⟨p, w⟩, hmem, rfl⟩ := List.mem_map.mp hx
  obtain ⟨hp, hw⟩ := hgood (p, w) hmem
  cases w with
  | none => exact ⟨p, hp, rfl⟩
  | some v =>
    refine ⟨p ++ [v], goodToks_append hp ?_, ?_⟩
    · rw [goodPayload] at hw
      rw [goodToks]
      simp [hw]
    · show mkAddLine (pre ++ p ++ [v]) = mkAddLine (pre ++ (p ++ [v]))
      rw [List.append_assoc]

mutual

/-- Every line of the removed-subtree walk on a well-formed value is a
removal line over well-formed tokens below the prefix. -/
theorem emitRemoved_shape : ∀ (pre : List String) (d : Doc),
    wfDoc d = true → ∀ l ∈ emitRemoved pre d,
    ∃ rest, goodToks rest = true ∧ l = mkDelLine (pre ++ rest)
  | pre, .map es, hd => by
    intro l hl
    rw [emitRemoved] at hl
    exact emitRemovedEntries_shape pre es (wfDoc_map hd) l hl
  | pre, .flag, _ => by
    intro l hl
    rw [emitRemoved] at hl
    exact ⟨["True"], by decide, List.mem_singleton.mp hl⟩
  | pre, .str s, hd => by
    intro l hl
    rw [emitRemoved] at hl
    have hs : goodTok s = true := by rw [wfDoc] at hd; exact hd
    refine ⟨[s], ?_, List.mem_singleton.mp hl⟩
    rw [goodToks]
    simp [hs]
  | _, .vals l2, hd => by rw [wfDoc] at hd; cases hd
termination_by _ d => sizeOf d

/-- The entries version of `emitRemoved_shape`. -/
theorem emitRemovedEntries_shape : ∀ (pre : List String) (es : Entries),
    wfEntries es = true → ∀ l ∈ emitRemovedEntries pre es,
    ∃ rest, goodToks rest = true ∧ l = mkDelLine (pre ++ rest)
  | _, [], _ => by
    intro l hl
    rw [emitRemovedEntries] at hl
    cases hl
  | pre, (k, v) :: rest, h => by
    obtain ⟨hk, hv, hrest⟩ := wfEntries_cons h
    intro l hl
    cases v with
    | map es2 =>
      cases es2 with
      | nil => rw [wfDoc] at hv; simp at hv
      | cons e2 es3 =>
        rw [emitRemovedEntries] at hl
        rcases List.mem_append.mp hl with hl | hl
        · obtain ⟨r2, hg, hl2⟩ :=
            emitRemoved_shape (pre ++ [k]) (.map (e2 :: es3)) hv l hl
          refine ⟨k :: r2, goodToks_cons hk hg, ?_⟩
          rw [hl2, List.append_assoc]
          rfl
        · exact emitRemovedEntries_shape pre rest hrest l hl
    | flag =>
      rw [emitRemovedEntries] at hl
      rcases List.mem_append.mp hl with hl | hl
      · exact ⟨[k], goodToks_cons hk rfl, List.mem_singleton.mp hl⟩
      · exact emitRemovedEntries_shape pre rest hrest l hl
    | str s =>
      rw [emitRemovedEntries] at hl
      rcases List.mem_append.mp hl with hl | hl
      · have hs : goodTok s = true := by rw [wfDoc] at hv; exact hv
        exact ⟨[k, s], goodToks_cons hk (goodToks_cons hs rfl),
          List.mem_singleton.mp hl⟩
      · exact emitRemovedEntries_shape pre rest hrest l hl
    | vals l2 => rw [wfDoc] at hv; cases hv
termination_by _ es => sizeOf es

end

/-- Every flattened child-removal line over a well-formed entry list is a
removal line over well-formed tokens. -/
theorem removedChildLines_shape (pre : List String) (es : Entries)
    (h : wfEntries es = true) :
    ∀ l ∈ removedChildLines pre es,
      ∃ rest, goodToks rest = true ∧ l = mkDelLine (pre ++ rest) := by
  induction es with
  | nil => intro l hl; cases hl
  | cons e rest ih =>
    obtain ⟨k, v⟩ := e
    obtain ⟨hk, hv, hrest⟩ := wfEntries_cons h
    intro l hl
    cases v with
    | map es2 =>
      rw [removedChildLines] at hl
      rcases List.mem_append.mp hl with hl | hl
      · obtain ⟨r2, hg, hl2⟩ := emitRemoved_shape (pre ++ [k]) (.map es2) hv l hl
        refine ⟨k :: r2, goodToks_cons hk hg, ?_⟩
        rw [hl2, List.append_assoc]
        rfl
      · exact ih hrest l hl
    | flag =>
      rw [removedChildLines] at hl
      rcases List.mem_append.mp hl with hl | hl
      · exact ⟨[k], goodToks_cons hk rfl, List.mem_singleton.mp hl⟩
      · exact ih hrest l hl
    | str s =>
      rw [removedChildLines] at hl
      rcases List.mem_append.mp hl with hl | hl
      · exact ⟨[k], goodToks_cons hk rfl, List.mem_singleton.mp hl⟩
      · exact ih hrest l hl
    | vals l2 => rw [wfDoc] at hv; cases hv

mutual

/-- Every line of `_diff` on well-formed optional values is a signed line
over well-formed tokens below the prefix. -/
theorem diff_shape : ∀ (pre : List String) (a b : Option Doc),
    wfDocO a = true → wfDocO b = true → ∀ l ∈ diff pre a b,
    ∃ rest, goodToks rest = true ∧
      (l = mkAddLine (pre ++ rest) ∨ l = mkDelLine (pre ++ rest))
  | pre, some (.map ea), some (.map eb), ha, hb => by
    intro l hl
    rw [show diff pre (some (.map ea)) (some (.map eb)) =
      unionDiff pre ea eb from by simp [diff]] at hl
    obtain ⟨kk, r2, -, hg, hor⟩ :=
      union_shape pre ea eb (wfDoc_map ha) (wfDoc_map hb) l hl
    exact ⟨kk :: r2, hg, hor⟩
  | pre, some (.map ea), none, ha, _ => by
    intro l hl
    rw [show diff pre (some (.map ea)) none =
      emitRemoved pre (.map ea) from by simp [diff]] at hl
    obtain ⟨r2, hg, hl2⟩ := emitRemoved_shape pre (.map ea) ha l hl
    exact ⟨r2, hg, Or.inr hl2⟩
  | pre, some (.map ea), some .flag, ha, _ => by
    intro l hl
    rw [show diff pre (some (.map ea)) (some .flag) =
      removedChildLines pre ea ++ addLeafLines pre .flag from by
        simp [diff]] at hl
    rcases List.mem_append.mp hl with hl | hl
    · obtain ⟨r2, hg, hl2⟩ :=
        removedChildLines_shape pre ea (wfDoc_map ha) l hl
      exact ⟨r2, hg, Or.inr hl2⟩
    · refine ⟨[], rfl, Or.inl ?_⟩
      have := List.mem_singleton.mp hl
      rw [this]
      simp [addLeafLines, mkAddLine]
  | pre, some (.map ea), some (.str s), ha, hb => by
    intro l hl
    rw [show diff pre (some (.map ea)) (some (.str s)) =
      removedChildLines pre ea ++ addLeafLines pre (.str s) from by
        simp [diff]] at hl
    rcases List.mem_append.mp hl with hl | hl
    · obtain ⟨r2, hg, hl2⟩ :=
        removedChildLines_shape pre ea (wfDoc_map ha) l hl
      exact ⟨r2, hg, Or.inr hl2⟩
    · have hs : goodTok s = true := by rw [wfDocO, wfDoc] at hb; exact hb
      refine ⟨[s], by rw [goodToks]; simp [hs], Or.inl ?_⟩
      exact List.mem_singleton.mp hl
  | _, some (.map _), some (.vals _), _, hb => by
    rw [wfDocO, wfDoc] at hb
    cases hb
  | pre, none, some (.map eb), _, hb => by
    intro l hl
    rw [show diff pre none (some (.map eb)) =
      emitAdded pre (.map eb) from by simp [diff]] at hl
    rw [emitAdded_eq pre (.map eb) hb] at hl
    obtain ⟨r2, hg, hl2⟩ := renderLeaves_shape pre
      (leaves_good (.map eb) hb) l hl
    exact ⟨r2, hg, Or.inl hl2⟩
  | pre, some .flag, some (.map eb), _, hb => by
    intro l hl
    rw [show diff pre (some .flag) (some (.map eb)) =
      addedChildLines pre eb from by simp [diff]] at hl
    rw [addedChildLines_eq pre eb (wfDoc_map hb)] at hl
    obtain ⟨r2, hg, hl2⟩ := renderLeaves_shape pre
      (leavesEntries_good eb (wfDoc_map hb)) l hl
    exact ⟨r2, hg, Or.inl hl2⟩
  | pre, some (.str a), some (.map eb), _, hb => by
    intro l hl
    rw [show diff pre (some (.str a)) (some (.map eb)) =
      addedChildLines pre eb from by simp [diff]] at hl
    rw [addedChildLines_eq pre eb (wfDoc_map hb)] at hl
    obtain ⟨r2, hg, hl2⟩ := renderLeaves_shape pre
      (leavesEntries_good eb (wfDoc_map hb)) l hl
    exact ⟨r2, hg, Or.inl hl2⟩
  | _, some (.vals _), _, ha, _ => by
    rw [wfDocO, wfDoc] at ha
    cases ha
  | pre, none, some .flag, _, _ => by
    intro l hl
    rw [show diff pre none (some .flag) = addLeafLines pre .flag from by
      simp [diff]] at hl
    refine ⟨[], rfl, Or.inl ?_⟩
    have := List.mem_singleton.mp hl
    rw [this]
    simp [addLeafLines, mkAddLine]
  | pre, none, some (.str s), _, hb => by
    intro l hl
    rw [show diff pre none (some (.str s)) = addLeafLines pre (.str s)
      from by simp [diff]] at hl
    have hs : goodTok s = true := by rw [wfDocO, wfDoc] at hb; exact hb
    refine ⟨[s], by rw [goodToks]; simp [hs], Or.inl ?_⟩
    exact List.mem_singleton.mp hl
  | _, _, some (.vals _), _, hb => by
    rw [wfDocO, wfDoc] at hb
    cases hb
  | pre, some .flag, none, _, _ => by
    intro l hl
    rw [show diff pre (some .flag) none = [mkDelLine pre] from by
      simp [diff]] at hl
    refine ⟨[], rfl, Or.inr ?_⟩
    have := List.mem_singleton.mp hl
    rw [this]
    simp
  | pre, some (.str s), none, _, _ => by
    intro l hl
    rw [show diff pre (some (.str s)) none = [mkDelLine pre] from by
      simp [diff]] at hl
    refine ⟨[], rfl, Or.inr ?_⟩
    have := List.mem_singleton.mp hl
    rw [this]
    simp
  | pre, none, none, _, _ => by
    intro l hl
    rw [show diff pre none none = [] from by simp [diff]] at hl
    cases hl
  | pre, some .flag, some .flag, _, _ => by
    intro l hl
    rw [show diff pre (some .flag) (some .flag) = [] from by
      simp [diff, leafEqB]] at hl
    cases hl
  | pre, some .flag, some (.str s), _, hb => by
    intro l hl
    rw [show diff pre (some .flag) (some (.str s)) =
      changedLeafLines "-" pre .flag ++ changedLeafLines "+" pre (.str s)
      from by simp [diff, leafEqB]] at hl
    rcases List.mem_append.mp hl with hl | hl
    · refine ⟨[], rfl, Or.inr ?_⟩
      have := List.mem_singleton.mp hl
      rw [this]
      simp [changedLeafLines, mkDelLine]
    · have hs : goodTok s = true := by rw [wfDocO, wfDoc] at hb; exact hb
      refine ⟨[s], by rw [goodToks]; simp [hs], Or.inl ?_⟩
      have := List.mem_singleton.mp hl
      rw [this]
      rfl
  | pre, some (.str a), some .flag, ha, _ => by
    intro l hl
    rw [show diff pre (some (.str a)) (some .flag) =
      changedLeafLines "-" pre (.str a) ++ changedLeafLines "+" pre .flag
      from by simp [diff, leafEqB]] at hl
    rcases List.mem_append.mp hl with hl | hl
    · have hs : goodTok a = true := by rw [wfDocO, wfDoc] at ha; exact ha
      refine ⟨[a], by rw [goodToks]; simp [hs], Or.inr ?_⟩
      have := List.mem_singleton.mp hl
      rw [this]
      rfl
    · refine ⟨[], rfl, Or.inl ?_⟩
      have := List.mem_singleton.mp hl
      rw [this]
      simp [changedLeafLines, mkAddLine]
  | pre, some (.str a), some (.str b), ha, hb => by
    intro l hl
    by_cases hab : a = b
    · subst hab
      rw [show diff pre (some (.str a)) (some (.str a)) = [] from by
        simp [diff, leafEqB]] at hl
      cases hl
    · rw [show diff pre (some (.str a)) (some (.str b)) =
        changedLeafLines "-" pre (.str a) ++ changedLeafLines "+" pre (.str b)
        from by simp [diff, leafEqB, hab]] at hl
      rcases List.mem_append.mp hl with hl | hl
      · have hs : goodTok a = true := by rw [wfDocO, wfDoc] at ha; exact ha
        refine ⟨[a], by rw [goodToks]; simp [hs], Or.inr ?_⟩
        have := List.mem_singleton.mp hl
        rw [this]
        rfl
      · have hs : goodTok b = true := by rw [wfDocO, wfDoc] at hb; exact hb
        refine ⟨[b], by rw [goodToks]; simp [hs], Or.inl ?_⟩
        have := List.mem_singleton.mp hl
        rw [this]
        rfl
termination_by _ a b => sizeOf a + sizeOf b

/-- Every line of the key-union walk on well-formed sorted entry lists is a
signed line below the prefix whose first own token is a key of one of the
two lists. -/
theorem union_shape : ∀ (pre : List String) (ea eb : Entries),
    wfEntries ea = true → wfEntries eb = true → ∀ l ∈ unionDiff pre ea eb,
    ∃ kk rest, (kk ∈ ea.map Prod.fst ∨ kk ∈ eb.map Prod.fst) ∧
      goodToks (kk :: rest) = true ∧
      (l = mkAddLine (pre ++ kk :: rest) ∨ l = mkDelLine (pre ++ kk :: rest))
  | pre, [], [], _, _ => by
    intro l hl
    rw [unionDiff] at hl
    cases hl
  | pre, [], (k, v) :: r, _, hb => by
    obtain ⟨hk, hv, hr⟩ := wfEntries_cons hb
    intro l hl
    rw [unionDiff] at hl
    rcases List.mem_append.mp hl with hl | hl
    · obtain ⟨r2, hg, hor⟩ := diff_shape (pre ++ [k]) none (some v) rfl hv l hl
      refine ⟨k, r2, Or.inr (by simp), goodToks_cons hk hg, ?_⟩
      rcases hor with hor | hor
      · exact Or.inl (by rw [hor, List.append_assoc]; rfl)
      · exact Or.inr (by rw [hor, List.append_assoc]; rfl)
    · obtain ⟨kk, r2, hmem, hg, hor⟩ :=
        union_shape pre [] r (by rw [wfEntries]) hr l hl
      refine ⟨kk, r2, ?_, hg, hor⟩
      rcases hmem with hmem | hmem
      · cases hmem
      · exact Or.inr (by simp [hmem])
  | pre, (k, v) :: l2, [], ha, _ => by
    obtain ⟨hk, hv, hl2⟩ := wfEntries_cons ha
    intro l hl
    rw [unionDiff] at hl
    rcases List.mem_append.mp hl with hl | hl
    · obtain ⟨r2, hg, hor⟩ := diff_shape (pre ++ [k]) (some v) none hv rfl l hl
      refine ⟨k, r2, Or.inl (by simp), goodToks_cons hk hg, ?_⟩
      rcases hor with hor | hor
      · exact Or.inl (by rw [hor, List.append_assoc]; rfl)
      · exact Or.inr (by rw [hor, List.append_assoc]; rfl)
    · obtain ⟨kk, r2, hmem, hg, hor⟩ :=
        union_shape pre l2 [] hl2 (by rw [wfEntries]) l hl
      refine ⟨kk, r2, ?_, hg, hor⟩
      rcases hmem with hmem | hmem
      · exact Or.inl (by simp [hmem])
      · cases hmem
  | pre, (k1, v1) :: l2, (k2, v2) :: r, ha, hb => by
    obtain ⟨hk1, hv1, hl2w⟩ := wfEntries_cons ha
    obtain ⟨hk2, hv2, hrw⟩ := wfEntries_cons hb
    intro l hl
    rw [unionDiff] at hl
    by_cases h12 : strLt k1 k2 = true
    · rw [if_pos h12] at hl
      rcases List.mem_append.mp hl with hl | hl
      · obtain ⟨r2, hg, hor⟩ :=
          diff_shape (pre ++ [k1]) (some v1) none hv1 rfl l hl
        refine ⟨k1, r2, Or.inl (by simp), goodToks_cons hk1 hg, ?_⟩
        rcases hor with hor | hor
        · exact Or.inl (by rw [hor, List.append_assoc]; rfl)
        · exact Or.inr (by rw [hor, List.append_assoc]; rfl)
      · obtain ⟨kk, r2, hmem, hg, hor⟩ :=
          union_shape pre l2 ((k2, v2) :: r) hl2w hb l hl
        refine ⟨kk, r2, ?_, hg, hor⟩
        rcases hmem with hmem | hmem
        · exact Or.inl (by simp [hmem])
        · exact Or.inr hmem
    · by_cases h21 : strLt k2 k1 = true
      · rw [if_neg h12, if_pos h21] at hl
        rcases List.mem_append.mp hl with hl | hl
        · obtain ⟨r2, hg, hor⟩ :=
            diff_shape (pre ++ [k2]) none (some v2) rfl hv2 l hl
          refine ⟨k2, r2, Or.inr (by simp), goodToks_cons hk2 hg, ?_⟩
          rcases hor with hor | hor
          · exact Or.inl (by rw [hor, List.append_assoc]; rfl)
          · exact Or.inr (by rw [hor, List.append_assoc]; rfl)
        · obtain ⟨kk, r2, hmem, hg, hor⟩ :=
            union_shape pre ((k1, v1) :: l2) r ha hrw l hl
          refine ⟨kk, r2, ?_, hg, hor⟩
          rcases hmem with hmem | hmem
          · exact Or.inl hmem
          · exact Or.inr (by simp [hmem])
      · rw [if_neg h12, if_neg h21] at hl
        rcases List.mem_append.mp hl with hl | hl
        · obtain ⟨r2, hg, hor⟩ :=
            diff_shape (pre ++ [k1]) (some v1) (some v2) hv1 hv2 l hl
          refine ⟨k1, r2, Or.inl (by simp), goodToks_cons hk1 hg, ?_⟩
          rcases hor with hor | hor
          · exact Or.inl (by rw [hor, List.append_assoc]; rfl)
          · exact Or.inr (by rw [hor, List.append_assoc]; rfl)
        · obtain ⟨kk, r2, hmem, hg, hor⟩ :=
            union_shape pre l2 r hl2w hrw l hl
          refine ⟨kk, r2, ?_, hg, hor⟩
          rcases hmem with hmem | hmem
          · exact Or.inl (by simp [hmem])
          · exact Or.inr (by simp [hmem])
termination_by _ ea eb => sizeOf ea + sizeOf eb

end

mutual

/-- `_diff` of a document against itself emits nothing. -/
theorem diff_refl (pre : List String) (d : Doc) :
    diff pre (some d) (some d) = [] := by
  cases d with
  | map es =>
    simp only [diff]
    exact unionDiff_refl pre es
  | flag => simp [diff, leafEqB]
  | str s => simp [diff, leafEqB]
  | vals l => simp [diff, leafEqB]
termination_by sizeOf d

/-- The key-union walk of `_diff` on two identical entry lists emits
nothing. -/
theorem unionDiff_refl (pre : List String) (es : Entries) :
    unionDiff pre es es = [] := by
  cases es with
  | nil => simp [unionDiff]
  | cons e rest =>
    obtain ⟨k, v⟩ := e
    simp [unionDiff, strLt_irrefl, diff_refl (pre ++ [k]) v,
      unionDiff_refl pre rest]
termination_by sizeOf es

end

/-- A successful leaf lookup through a mapping decomposes into a child
lookup followed by a leaf lookup in the child. -/
theorem lookupLeaf_map_cons {es : Entries} {k : String} {p : List String}
    {w : Option String} (h : lookupLeaf (.map es) (k :: p) = some w) :
    ∃ v, alookup es k = some v ∧ lookupLeaf v p = some w := by
  cases hab : alookup es k with
  | none =>
    have hn : lookupLeaf (.map es) (k :: p) = none := by
      rw [lookupLeaf, hab]
    rw [hn] at h
    cases h
  | some v =>
    refine ⟨v, rfl, ?_⟩
    have hs : lookupLeaf (.map es) (k :: p) = lookupLeaf v p := by
      rw [lookupLeaf, hab]
    rw [hs] at h
    exact h

/-- A signed diff line whose first token below the prefix differs from a
leaf path's first token never references that leaf. -/
theorem notRef {pre : List String} {kk k : String} {r2 p2 : List String}
    {w : Option String} (hpre : goodToks pre = true)
    (hkk : goodToks (kk :: r2) = true) (hk : goodToks (k :: p2) = true)
    (hw : goodPayload w = true) (hne : kk ≠ k) {l : String}
    (hl : l = mkAddLine (pre ++ kk :: r2) ∨
      l = mkDelLine (pre ++ kk :: r2)) :
    l ∉ leafLineStrings (pre ++ k :: p2) w := by
  have keyAdd : ∀ q : List String, goodToks (k :: q) = true →
      mkAddLine (pre ++ kk :: r2) ≠ mkAddLine (pre ++ k :: q) := by
    intro q hq he
    have hc := List.append_cancel_left
      (mkAddLine_inj (goodToks_append hpre hkk) (goodToks_append hpre hq) he)
    injection hc with h1 _
    exact hne h1
  have keyDel : ∀ q : List String, goodToks (k :: q) = true →
      mkDelLine (pre ++ kk :: r2) ≠ mkDelLine (pre ++ k :: q) := by
    intro q hq he
    have hc := List.append_cancel_left
      (mkDelLine_inj (goodToks_append hpre hkk) (goodToks_append hpre hq) he)
    injection hc with h1 _
    exact hne h1
  intro hmem
  cases w with
  | none =>
    simp only [leafLineStrings, List.mem_cons, List.not_mem_nil,
      or_false] at hmem
    rcases hl with rfl | rfl
    · rcases hmem with he | he
      · exact keyAdd p2 hk he
      · exact mkAddLine_ne_mkDelLine _ _ he
    · rcases hmem with he | he
      · exact mkAddLine_ne_mkDelLine _ _ he.symm
      · exact keyDel p2 hk he
  | some v =>
    have hv : goodTok v = true := by rw [goodPayload] at hw; exact hw
    have hkq : goodToks (k :: (p2 ++ [v])) = true :=
      goodToks_append hk (by rw [goodToks]; simp [hv])
    simp only [leafLineStrings, List.mem_cons, List.not_mem_nil,
      or_false] at hmem
    rcases hl with rfl | rfl
    · rcases hmem with he | he | he | he
      · exact keyAdd p2 hk he
      · exact mkAddLine_ne_mkDelLine _ _ he
      · rw [List.append_assoc] at he
        exact keyAdd (p2 ++ [v]) hkq he
      · exact mkAddLine_ne_mkDelLine _ _ he
    · rcases hmem with he | he | he | he
      · exact mkAddLine_ne_mkDelLine _ _ he.symm
      · exact keyDel p2 hk he
      · exact mkAddLine_ne_mkDelLine _ _ he.symm
      · rw [List.append_assoc] at he
        exact keyDel (p2 ++ [v]) hkq he

mutual

/-- A leaf present with the same payload on both sides of `_diff` is
referenced by no emitted line. -/
theorem noRef_diff : ∀ (pre : List String) (a b : Doc),
    goodToks pre = true → wfDoc a = true → wfDoc b = true →
    ∀ (p : List String) (w : Option String),
    lookupLeaf a p = some w → lookupLeaf b p = some w →
    ∀ l ∈ diff pre (some a) (some b), l ∉ leafLineStrings (pre ++ p) w
  | pre, .map ea, .map eb, hpre, ha, hb => by
    intro p w hla hlb l hl
    cases p with
    | nil =>
      rw [show lookupLeaf (Doc.map ea) [] = (none : Option (Option String))
        from rfl] at hla
      cases hla
    | cons k p2 =>
      rw [show diff pre (some (.map ea)) (some (.map eb)) =
        unionDiff pre ea eb from by simp [diff]] at hl
      exact noRef_union pre ea eb hpre (wfDoc_map ha) (wfDoc_map hb)
        k p2 w hla hlb l hl
  | pre, .map ea, .flag, _, _, _ => by
    intro p w hla hlb l hl
    cases p with
    | nil =>
      rw [show lookupLeaf (Doc.map ea) [] = (none : Option (Option String))
        from rfl] at hla
      cases hla
    | cons k p2 =>
      rw [show lookupLeaf Doc.flag (k :: p2) = (none : Option (Option String))
        from rfl] at hlb
      cases hlb
  | pre, .map ea, .str s, _, _, _ => by
    intro p w hla hlb l hl
    cases p with
    | nil =>
      rw [show lookupLeaf (Doc.map ea) [] = (none : Option (Option String))
        from rfl] at hla
      cases hla
    | cons k p2 =>
      rw [show lookupLeaf (Doc.str s) (k :: p2) =
        (none : Option (Option String)) from rfl] at hlb
      cases hlb
  | _, .map _, .vals _, _, _, hb => by rw [wfDoc] at hb; cases hb
  | pre, .flag, b, _, _, hb => by
    intro p w hla hlb l hl
    cases p with
    | cons k p2 =>
      rw [show lookupLeaf Doc.flag (k :: p2) = (none : Option (Option String))
        from rfl] at hla
      cases hla
    | nil =>
      injection hla with hw2
      cases b with
      | flag =>
        rw [diff_refl] at hl
        cases hl
      | str s =>
        injection hlb with hw3
        rw [← hw2] at hw3
        cases hw3
      | vals l2 => rw [wfDoc] at hb; cases hb
      | map es =>
        rw [show lookupLeaf (Doc.map es) [] = (none : Option (Option String))
          from rfl] at hlb
        cases hlb
  | pre, .str va, b, _, _, hb => by
    intro p w hla hlb l hl
    cases p with
    | cons k p2 =>
      rw [show lookupLeaf (Doc.str va) (k :: p2) =
        (none : Option (Option String)) from rfl] at hla
      cases hla
    | nil =>
      injection hla with hw2
      cases b with
      | flag =>
        injection hlb with hw3
        rw [← hw2] at hw3
        cases hw3
      | str sb =>
        injection hlb with hw3
        rw [← hw2] at hw3
        injection hw3 with hw4
        rw [hw4] at hl
        rw [diff_refl] at hl
        cases hl
      | vals l2 => rw [wfDoc] at hb; cases hb
      | map es =>
        rw [show lookupLeaf (Doc.map es) [] = (none : Option (Option String))
          from rfl] at hlb
        cases hlb
  | _, .vals _, _, _, ha, _ => by rw [wfDoc] at ha; cases ha
termination_by _ a b => sizeOf a + sizeOf b

/-- The key-union walk of `_diff` emits no line referencing a leaf present
with the same payload in both entry lists. -/
theorem noRef_union : ∀ (pre : List String) (ea eb : Entries),
    goodToks pre = true → wfEntries ea = true → wfEntries eb = true →
    ∀ (k : String) (p2 : List String) (w : Option String),
    lookupLeaf (.map ea) (k :: p2) = some w →
    lookupLeaf (.map eb) (k :: p2) = some w →
    ∀ l ∈ unionDiff pre ea eb, l ∉ leafLineStrings (pre ++ k :: p2) w
  | _, [], _, _, _, _ => by
    intro k p2 w hla _ l _
    rw [show lookupLeaf (Doc.map []) (k :: p2) =
      (none : Option (Option String)) from rfl] at hla
    cases hla
  | _, (_, _) :: _, [], _, _, _ => by
    intro k p2 w _ hlb l _
    rw [show lookupLeaf (Doc.map []) (k :: p2) =
      (none : Option (Option String)) from rfl] at hlb
    cases hlb
  | pre, (k1, v1) :: l2, (k2, v2) :: r, hpre, ha, hb => by
    obtain ⟨hk1, hv1, hl2w⟩ := wfEntries_cons ha
    obtain ⟨hk2, hv2, hrw⟩ := wfEntries_cons hb
    intro k p2 w hla hlb l hl
    have hgoodL := lookupLeaf_good (k :: p2) (.map ((k1, v1) :: l2))
      (by rw [wfDoc]; simp [ha]) hla
    rw [unionDiff] at hl
    by_cases h12 : strLt k1 k2 = true
    · rw [if_pos h12] at hl
      obtain ⟨vb, habk, hlbv⟩ := lookupLeaf_map_cons hlb
      have hk1k : k1 ≠ k := by
        rcases List.mem_cons.mp (alookup_mem habk) with he | hm
        · have hkk2 : k = k2 := congrArg Prod.fst he
          rw [hkk2]
          exact strLt_ne h12
        · exact strLt_ne (strLt_trans h12 (key_lt_of_mem hb (k, vb) hm))
      rcases List.mem_append.mp hl with hl | hl
      · obtain ⟨r2, hg, hor⟩ :=
          diff_shape (pre ++ [k1]) (some v1) none hv1 rfl l hl
        refine notRef hpre (goodToks_cons hk1 hg) hgoodL.1 hgoodL.2 hk1k ?_
        rcases hor with hor | hor
        · exact Or.inl (by rw [hor, List.append_assoc]; rfl)
        · exact Or.inr (by rw [hor, List.append_assoc]; rfl)
      · rw [lookupLeaf_cons_ne v1 l2 p2 hk1k] at hla
        exact noRef_union pre l2 ((k2, v2) :: r) hpre hl2w hb
          k p2 w hla hlb l hl
    · by_cases h21 : strLt k2 k1 = true
      · rw [if_neg h12, if_pos h21] at hl
        obtain ⟨va, haak, hlav⟩ := lookupLeaf_map_cons hla
        have hk2k : k2 ≠ k := by
          rcases List.mem_cons.mp (alookup_mem haak) with he | hm
          · have hkk1 : k = k1 := congrArg Prod.fst he
            rw [hkk1]
            exact strLt_ne h21
          · exact strLt_ne (strLt_trans h21 (key_lt_of_mem ha (k, va) hm))
        rcases List.mem_append.mp hl with hl | hl
        · obtain ⟨r2, hg, hor⟩ :=
            diff_shape (pre ++ [k2]) none (some v2) rfl hv2 l hl
          refine notRef hpre (goodToks_cons hk2 hg) hgoodL.1 hgoodL.2 hk2k ?_
          rcases hor with hor | hor
          · exact Or.inl (by rw [hor, List.append_assoc]; rfl)
          · exact Or.inr (by rw [hor, List.append_assoc]; rfl)
        · rw [lookupLeaf_cons_ne v2 r p2 hk2k] at hlb
          exact noRef_union pre ((k1, v1) :: l2) r hpre ha hrw
            k p2 w hla hlb l hl
      · have h12f : strLt k1 k2 = false := by
          cases hx : strLt k1 k2
          · rfl
          · exact absurd hx h12
        have h21f : strLt k2 k1 = false := by
          cases hx : strLt k2 k1
          · rfl
          · exact absurd hx h21
        have heq : k1 = k2 := strLt_conn h12f h21f
        subst heq
        rw [if_neg h12, if_neg h21] at hl
        by_cases hk : k = k1
        · subst hk
          rw [lookupLeaf_cons_eq] at hla hlb
          rcases List.mem_append.mp hl with hl | hl
          · have hout := noRef_diff (pre ++ [k]) v1 v2
              (goodToks_append hpre (by rw [goodToks]; simp [hk1]))
              hv1 hv2 p2 w hla hlb l hl
            rw [List.append_assoc] at hout
            exact hout
          · obtain ⟨kk, r2, hmem2, hg, hor⟩ :=
              union_shape pre l2 r hl2w hrw l hl
            have hlt : strLt k kk = true := by
              rcases hmem2 with hm | hm
              · obtain ⟨e, he, hfst⟩ := List.mem_map.mp hm
                rw [← hfst]
                exact key_lt_of_mem ha e he
              · obtain ⟨e, he, hfst⟩ := List.mem_map.mp hm
                rw [← hfst]
                exact key_lt_of_mem hb e he
            exact notRef hpre hg hgoodL.1 hgoodL.2 (Ne.symm (strLt_ne hlt)) hor
        · have hk1k : k1 ≠ k := fun he => hk he.symm
          rw [lookupLeaf_cons_ne v1 l2 p2 hk1k] at hla
          rw [lookupLeaf_cons_ne v2 r p2 hk1k] at hlb
          rcases List.mem_append.mp hl with hl | hl
          · obtain ⟨r2, hg, hor⟩ :=
              diff_shape (pre ++ [k1]) (some v1) (some v2) hv1 hv2 l hl
            refine notRef hpre (goodToks_cons hk1 hg) hgoodL.1 hgoodL.2
              hk1k ?_
            rcases hor with hor | hor
            · exact Or.inl (by rw [hor, List.append_assoc]; rfl)
            · exact Or.inr (by rw [hor, List.append_assoc]; rfl)
          · exact noRef_union pre l2 r hpre hl2w hrw k p2 w hla hlb l hl
termination_by _ ea eb => sizeOf ea + sizeOf eb

end

/-- Building a well-formed entry list from a well-formed head and tail when
the head key is below every tail key. -/
theorem wfEntries_mk {k : String} {v : Doc} {rest : Entries}
    (hk : goodTok k = true) (hv : wfDoc v = true)
    (hrest : wfEntries rest = true)
    (hlt : ∀ e ∈ rest, strLt k e.1 = true) :
    wfEntries ((k, v) :: rest) = true := by
  rw [wfEntries.eq_def]
  cases rest with
  | nil => simp [hk, hv, hrest]
  | cons e2 r2 =>
    obtain ⟨k2, v2⟩ := e2
    simp [hk, hv, hrest, hlt (k2, v2) (List.mem_cons_self (k2, v2) r2)]

/-- The canonical merge of two entry lists is empty only when both are. -/
theorem mergeEntries_ne_nil {l r : Entries} (h : l ≠ [] ∨ r ≠ []) :
    mergeEntries l r ≠ [] := by
  cases l with
  | nil =>
    rw [mergeEntries]
    rcases h with h | h
    · exact absurd rfl h
    · exact h
  | cons e l2 =>
    obtain ⟨k1, v1⟩ := e
    cases r with
    | nil =>
      rw [show mergeEntries ((k1, v1) :: l2) [] = (k1, v1) :: l2 from by
        simp [mergeEntries]]
      simp
    | cons e2 r2 =>
      obtain ⟨k2, v2⟩ := e2
      rw [mergeEntries]
      by_cases h12 : strLt k1 k2 = true
      · rw [if_pos h12]; simp
      · by_cases h21 : strLt k2 k1 = true
        · rw [if_neg h12, if_pos h21]; simp
        · rw [if_neg h12, if_neg h21]; simp

mutual

/-- `_merge_dicts` preserves value well-formedness. -/
theorem mergeDoc_wf : ∀ (a b : Doc), wfDoc a = true → wfDoc b = true →
    wfDoc (mergeDoc a b) = true
  | .map l, .map r, ha, hb => by
    rw [show mergeDoc (.map l) (.map r) = .map (mergeEntries l r) from by
      rw [mergeDoc]]
    rw [wfDoc]
    have hne : mergeEntries l r ≠ [] := mergeEntries_ne_nil (Or.inl (by
      intro he
      rw [he, wfDoc] at ha
      simp at ha))
    have hwf := (mergeEntries_wf l r (wfDoc_map ha) (wfDoc_map hb)).1
    simp [hwf, List.isEmpty_iff, hne]
  | .map l, .flag, _, hb => by
    rw [show mergeDoc (.map l) .flag = .flag from by simp [mergeDoc]]
    exact hb
  | .map l, .str s, _, hb => by
    rw [show mergeDoc (.map l) (.str s) = .str s from by simp [mergeDoc]]
    exact hb
  | .map l, .vals v2, _, hb => by rw [wfDoc] at hb; cases hb
  | .flag, b, _, hb => by
    rw [show mergeDoc .flag b = b from by simp [mergeDoc]]
    exact hb
  | .str s, b, _, hb => by
    rw [show mergeDoc (.str s) b = b from by simp [mergeDoc]]
    exact hb
  | .vals v1, _, ha, _ => by rw [wfDoc] at ha; cases ha
termination_by a b => sizeOf a + sizeOf b

/-- The canonical sorted merge preserves entry-list well-formedness, and
every merged key comes from one of the inputs. -/
theorem mergeEntries_wf : ∀ (l r : Entries), wfEntries l = true →
    wfEntries r = true → wfEntries (mergeEntries l r) = true ∧
    ∀ e ∈ mergeEntries l r,
      e.1 ∈ l.map Prod.fst ∨ e.1 ∈ r.map Prod.fst
  | [], r, _, hr => by
    rw [show mergeEntries [] r = r from by rw [mergeEntries]]
    exact ⟨hr, fun e he => Or.inr (List.mem_map_of_mem Prod.fst he)⟩
  | (k1, v1) :: l2, [], hl, _ => by
    rw [show mergeEntries ((k1, v1) :: l2) [] = (k1, v1) :: l2 from by
      simp [mergeEntries]]
    exact ⟨hl, fun e he => Or.inl (List.mem_map_of_mem Prod.fst he)⟩
  | (k1, v1) :: l2, (k2, v2) :: r, hl, hr => by
    obtain ⟨hk1, hv1, hl2w⟩ := wfEntries_cons hl
    obtain ⟨hk2, hv2, hrw⟩ := wfEntries_cons hr
    rw [show mergeEntries ((k1, v1) :: l2) ((k2, v2) :: r) =
      if strLt k1 k2 then (k1, v1) :: mergeEntries l2 ((k2, v2) :: r)
      else if strLt k2 k1 then (k2, v2) :: mergeEntries ((k1, v1) :: l2) r
      else (k1, mergeDoc v1 v2) :: mergeEntries l2 r from by
        rw [mergeEntries]]
    by_cases h12 : strLt k1 k2 = true
    · rw [if_pos h12]
      obtain ⟨hwf, hmem⟩ := mergeEntries_wf l2 ((k2, v2) :: r) hl2w hr
      have hlt : ∀ e ∈ mergeEntries l2 ((k2, v2) :: r),
          strLt k1 e.1 = true := by
        intro e he
        rcases hmem e he with hm | hm
        · obtain ⟨e0, he0, hfst⟩ := List.mem_map.mp hm
          rw [← hfst]
          exact key_lt_of_mem hl e0 he0
        · simp only [List.map_cons, List.mem_cons] at hm
          rcases hm with hm | hm
          · rw [hm]; exact h12
          · obtain ⟨e0, he0, hfst⟩ := List.mem_map.mp hm
            rw [← hfst]
            exact strLt_trans h12 (key_lt_of_mem hr e0 he0)
      refine ⟨wfEntries_mk hk1 hv1 hwf hlt, ?_⟩
      intro e he
      rcases List.mem_cons.mp he with he | he
      · exact Or.inl (by rw [he]; simp)
      · rcases hmem e he with hm | hm
        · exact Or.inl (List.mem_cons_of_mem k1 hm)
        · exact Or.inr hm
    · by_cases h21 : strLt k2 k1 = true
      · rw [if_neg h12, if_pos h21]
        obtain ⟨hwf, hmem⟩ := mergeEntries_wf ((k1, v1) :: l2) r hl hrw
        have hlt : ∀ e ∈ mergeEntries ((k1, v1) :: l2) r,
            strLt k2 e.1 = true := by
          intro e he
          rcases hmem e he with hm | hm
          · simp only [List.map_cons, List.mem_cons] at hm
            rcases hm with hm | hm
            · rw [hm]; exact h21
            · obtain ⟨e0, he0, hfst⟩ := List.mem_map.mp hm
              rw [← hfst]
              exact strLt_trans h21 (key_lt_of_mem hl e0 he0)
          · obtain ⟨e0, he0, hfst⟩ := List.mem_map.mp hm
            rw [← hfst]
            exact key_lt_of_mem hr e0 he0
        refine ⟨wfEntries_mk hk2 hv2 hwf hlt, ?_⟩
        intro e he
        rcases List.mem_cons.mp he with he | he
        · exact Or.inr (by rw [he]; simp)
        · rcases hmem e he with hm | hm
          · exact Or.inl hm
          · exact Or.inr (List.mem_cons_of_mem k2 hm)
      · rw [if_neg h12, if_neg h21]
        obtain ⟨hwf, hmem⟩ := mergeEntries_wf l2 r hl2w hrw
        have h21f : strLt k2 k1 = false := by
          cases hx : strLt k2 k1
          · rfl
          · exact absurd hx h21
        have h12f : strLt k1 k2 = false := by
          cases hx : strLt k1 k2
          · rfl
          · exact absurd hx h12
        have heq : k1 = k2 := strLt_conn h12f h21f
        have hlt : ∀ e ∈ mergeEntries l2 r, strLt k1 e.1 = true := by
          intro e he
          rcases hmem e he with hm | hm
          · obtain ⟨e0, he0, hfst⟩ := List.mem_map.mp hm
            rw [← hfst]
            exact key_lt_of_mem hl e0 he0
          · obtain ⟨e0, he0, hfst⟩ := List.mem_map.mp hm
            rw [← hfst, heq]
            exact key_lt_of_mem hr e0 he0
        refine ⟨wfEntries_mk hk1 (mergeDoc_wf v1 v2 hv1 hv2) hwf hlt, ?_⟩
        intro e he
        rcases List.mem_cons.mp he with he | he
        · exact Or.inl (by rw [he]; simp)
        · rcases hmem e he with hm | hm
          · exact Or.inl (List.mem_cons_of_mem k1 hm)
          · exact Or.inr (List.mem_cons_of_mem k2 hm)
termination_by l r => sizeOf l + sizeOf r

end

/-- Looking up the key just set finds the new value. -/
theorem alookup_assocSet (es : Entries) (k : String) (v : Doc) :
    alookup (assocSet es k v) k = some v := by
  induction es with
  | nil => simp [assocSet, alookup]
  | cons e rest ih =>
    obtain ⟨k', v'⟩ := e
    by_cases hk : k' = k
    · simp [assocSet, hk, alookup]
    · simp [assocSet, hk, alookup, ih]

/-- Reading back a nested path just written yields the written value. -/
theorem getNested_setNestedE (kp : List String) (es : Entries) (v : Doc)
    (h : kp ≠ []) : getNested (.map (setNestedE es kp v)) kp = v := by
  induction kp generalizing es with
  | nil => exact absurd rfl h
  | cons k rest ih =>
    cases rest with
    | nil => simp [setNestedE, getNested, alookup_assocSet]
    | cons k2 ks =>
      simp only [setNestedE, getNested, alookup_assocSet]
      exact ih _ (by simp)

/-- Filtering out a key makes its lookup fail. -/
theorem alookup_filter_ne (es : Entries) (k : String) :
    alookup (es.filter (fun e => e.1 ≠ k)) k = none := by
  induction es with
  | nil => rfl
  | cons e rest ih =>
    obtain ⟨k', v'⟩ := e
    by_cases hk : k' = k
    · rw [List.filter_cons_of_neg (by simp [hk])]
      exact ih
    · rw [List.filter_cons_of_pos (by simp [hk])]
      simp only [alookup, if_neg hk]
      exact ih

/-- After `_delete_nested_value` the deleted path is gone entirely. -/
theorem lookupDoc_delNestedE (p : List String) (es : Entries) (h : p ≠ []) :
    lookupDoc (.map (delNestedE es p)) p = none := by
  induction p generalizing es with
  | nil => exact absurd rfl h
  | cons k rest ih =>
    cases rest with
    | nil => simp only [delNestedE, lookupDoc, alookup_filter_ne]
    | cons k2 ks =>
      cases hl : alookup es k with
      | none => simp [delNestedE, hl, lookupDoc]
      | some d =>
        cases d with
        | map ns =>
          simp only [delNestedE, hl, lookupDoc, alookup_assocSet]
          exact ih ns (by simp)
        | flag => simp [delNestedE, hl, lookupDoc]
        | str s => simp [delNestedE, hl, lookupDoc]
        | vals l => simp [delNestedE, hl, lookupDoc]

/-- C2 counterexample: with a list-valued leaf -- allowed by the claimed
document shape -- the round-trip emits lines for untouched list elements.
Here `C = \x7b"x": ["a"]\x7d` and `merge(C, D) = \x7b"x": ["a", "b"]\x7d`:
the element `"a"` is unaffected by the candidate, yet the diff removes and
re-adds it (`- x a` and `+ x a`), and the diff has two `+` lines though only
one element was introduced. -/
theorem C2_list_leaf_counterexample :
    diff [] (some (.map [("x", .vals [VAtom.s "a"])]))
      (some (.map [("x", .vals [VAtom.s "a", VAtom.s "b"])])) =
      ["- x a", "+ x a", "+ x b"] := by
  rw [show diff [] (some (.map [("x", .vals [VAtom.s "a"])]))
    (some (.map [("x", .vals [VAtom.s "a", VAtom.s "b"])])) =
    unionDiff [] [("x", .vals [VAtom.s "a"])]
      [("x", .vals [VAtom.s "a", VAtom.s "b"])] from by simp [diff]]
  rw [unionDiff]
  rw [if_neg (by decide), if_neg (by decide)]
  rw [show diff ([] ++ ["x"]) (some (.vals [VAtom.s "a"]))
    (some (.vals [VAtom.s "a", VAtom.s "b"])) =
    if leafEqB (.vals [VAtom.s "a"]) (.vals [VAtom.s "a", VAtom.s "b"])
    then []
    else changedLeafLines "-" ([] ++ ["x"]) (.vals [VAtom.s "a"]) ++
      changedLeafLines "+" ([] ++ ["x"])
        (.vals [VAtom.s "a", VAtom.s "b"]) from by simp [diff]]
  rw [if_neg (by decide)]
  rw [unionDiff]
  rfl

/-- C2 (amended to list-free documents): for well-formed committed `C` and
candidate `D` whose leaves are flags or scalars (no list-valued leaves,
which the counterexample shows break the claim), the `+` lines of
`_diff(C, _merge_dicts(C, D))` are exactly one rendered line per leaf of
the merged document that is new or changed relative to `C`, and no diff
line at all references a leaf that `D` left unaffected (a leaf present with
the same payload in `C` and in the merge). -/
theorem C2_merge_diff_round_trip (C D : Entries)
    (hC : wfEntries C = true) (hD : wfEntries D = true) :
    plusLines (diff [] (some (.map C)) (some (.map (mergeEntries C D)))) =
      ((leavesEntries (mergeEntries C D)).filter
        (fun pv => !(lookupLeaf (.map C) pv.1 == some pv.2))).map
        (renderLeafAt []) ∧
    ∀ p w, lookupLeaf (.map C) p = some w →
      lookupLeaf (.map (mergeEntries C D)) p = some w →
      ∀ l ∈ diff [] (some (.map C)) (some (.map (mergeEntries C D))),
        l ∉ leafLineStrings p w := by
  have hM : wfEntries (mergeEntries C D) = true :=
    (mergeEntries_wf C D hC hD).1
  constructor
  · rw [show diff [] (some (.map C)) (some (.map (mergeEntries C D))) =
      unionDiff [] C (mergeEntries C D) from by simp [diff]]
    exact plus_union [] C (mergeEntries C D) hC hM
  · intro p w hlc hlm l hl
    cases p with
    | nil =>
      rw [show lookupLeaf (Doc.map C) [] = (none : Option (Option String))
        from rfl] at hlc
      cases hlc
    | cons k p2 =>
      rw [show diff [] (some (.map C)) (some (.map (mergeEntries C D))) =
        unionDiff [] C (mergeEntries C D) from by simp [diff]] at hl
      exact noRef_union [] C (mergeEntries C D) rfl hC hM
        k p2 w hlc hlm l hl

/-- C2 witness: the amended round-trip at the concrete committed document
`\x7b"a": true\x7d` and candidate `\x7b"a": true, "b": "v"\x7d`. -/
theorem C2_merge_diff_round_trip_witness :
    wfEntries [("a", Doc.flag)] = true ∧
    wfEntries [("a", Doc.flag), ("b", Doc.str "v")] = true ∧
    (plusLines (diff [] (some (.map [("a", Doc.flag)]))
      (some (.map (mergeEntries [("a", Doc.flag)]
        [("a", Doc.flag), ("b", Doc.str "v")])))) =
      ((leavesEntries (mergeEntries [("a", Doc.flag)]
        [("a", Doc.flag), ("b", Doc.str "v")])).filter
        (fun pv =>
          !(lookupLeaf (.map [("a", Doc.flag)]) pv.1 == some pv.2))).map
        (renderLeafAt []) ∧
    ∀ p w, lookupLeaf (.map [("a", Doc.flag)]) p = some w →
      lookupLeaf (.map (mergeEntries [("a", Doc.flag)]
        [("a", Doc.flag), ("b", Doc.str "v")])) p = some w →
      ∀ l ∈ diff [] (some (.map [("a", Doc.flag)]))
        (some (.map (mergeEntries [("a", Doc.flag)]
          [("a", Doc.flag), ("b", Doc.str "v")]))),
        l ∉ leafLineStrings p w) :=
  ⟨by simp [wfEntries, wfDoc]; decide,
   by simp [wfEntries, wfDoc]; decide,
   C2_merge_diff_round_trip [("a", Doc.flag)]
     [("a", Doc.flag), ("b", Doc.str "v")]
     (by simp [wfEntries, wfDoc]; decide)
     (by simp [wfEntries, wfDoc]; decide)⟩

end Config

/-- C6: on a schema path whose terminal node declares `multi=true`:
applying `set` with the same scalar value twice stores the value exactly
once in the list at the computed path; `delete` naming one element of a
stored list whose other elements remain leaves exactly those remaining
elements at the same path in both the candidate and the committed working
copy; `delete` naming the last remaining element removes the path entirely
from both. -/
theorem C6_multi_value_set_delete :
    (∀ (schemaSet : Option CliCommon.JVal) (consumed : List String)
       (tagValues : List (String × String)) (cand working : Config.Entries)
       (kp : List String) (tsch : Option CliCommon.JVal) (v : String)
       (l0 : List Config.VAtom),
       Config.setWalk schemaSet tagValues
           (consumed.filter (fun p => p ≠ "set")) [] none none =
         (kp, some v, tsch) →
       kp ≠ [] →
       Config.isMultiSchema tsch = true →
       Config.seedValues (Config.effectiveExisting cand working kp) =
         some l0 →
       Config.VAtom.s v ∉ l0 →
       Config.getNested
           (.map (Config.applySet schemaSet consumed tagValues
             (Config.applySet schemaSet consumed tagValues cand working)
             working)) kp =
         .vals (l0 ++ [Config.VAtom.s v]) ∧
       (l0 ++ [Config.VAtom.s v]).count (Config.VAtom.s v) = 1) ∧
    (∀ (base : List String) (item : String)
       (cand working : Config.Entries) (L : List Config.VAtom),
       base ≠ [] →
       Config.currentListAt cand working base = some L →
       Config.VAtom.s item ∈ L →
       L.filter (fun a => a ≠ Config.VAtom.s item) ≠ [] →
       Config.getNested
           (.map (Config.applyDelete ("delete" :: (base ++ [item])) false
             cand working).1) base =
         .vals (L.filter (fun a => a ≠ Config.VAtom.s item)) ∧
       Config.getNested
           (.map (Config.applyDelete ("delete" :: (base ++ [item])) false
             cand working).2) base =
         .vals (L.filter (fun a => a ≠ Config.VAtom.s item))) ∧
    (∀ (base : List String) (item : String)
       (cand working : Config.Entries) (L : List Config.VAtom),
       base ≠ [] →
       Config.currentListAt cand working base = some L →
       Config.VAtom.s item ∈ L →
       L.filter (fun a => a ≠ Config.VAtom.s item) = [] →
       Config.lookupDoc
           (.map (Config.applyDelete ("delete" :: (base ++ [item])) false
             cand working).1) base = none ∧
       Config.lookupDoc
           (.map (Config.applyDelete ("delete" :: (base ++ [item])) false
             cand working).2) base = none) := by
  refine ⟨?_, ?_, ?_⟩
  · intro schemaSet consumed tagValues cand working kp tsch v l0
      hw hne hmulti hseed hnot
    obtain ⟨kh, kt, rfl⟩ : ∃ kh kt, kp = kh :: kt := by
      cases kp with
      | nil => exact absurd rfl hne
      | cons kh kt => exact ⟨kh, kt, rfl⟩
    have h1 : Config.applySet schemaSet consumed tagValues cand working =
        Config.setNestedE cand (kh :: kt)
          (.vals (l0 ++ [Config.VAtom.s v])) := by
      simp only [Config.applySet]
      rw [hw]
      simp only [hmulti, if_true, hseed]
      rw [if_neg hnot]
    have hgot : Config.effectiveExisting
        (Config.setNestedE cand (kh :: kt)
          (.vals (l0 ++ [Config.VAtom.s v]))) working (kh :: kt) =
        some (.vals (l0 ++ [Config.VAtom.s v])) := by
      unfold Config.effectiveExisting
      rw [Config.getNested_setNestedE _ _ _ (by simp)]
      rfl
    have h2 : Config.applySet schemaSet consumed tagValues
        (Config.setNestedE cand (kh :: kt)
          (.vals (l0 ++ [Config.VAtom.s v]))) working =
        Config.setNestedE
          (Config.setNestedE cand (kh :: kt)
            (.vals (l0 ++ [Config.VAtom.s v])))
          (kh :: kt) (.vals (l0 ++ [Config.VAtom.s v])) := by
      simp only [Config.applySet]
      rw [hw]
      simp only [hmulti, if_true, hgot]
      simp only [Config.seedValues]
      rw [if_pos (by simp)]
    rw [h1, h2]
    refine ⟨Config.getNested_setNestedE _ _ _ (by simp), ?_⟩
    rw [List.count_append]
    rw [List.count_eq_zero.mpr hnot]
    simp
  · intro base item cand working L hbase hcur hmem hfil
    have hlen : ("delete" :: (base ++ [item])).drop 1 = base ++ [item] := by
      simp
    have hge : (base ++ [item]).length ≥ 2 := by
      have := List.length_pos.mpr hbase
      simp [List.length_append]
      omega
    unfold Config.applyDelete
    simp only [hlen, Bool.false_and, Bool.false_eq_true, if_false,
      List.dropLast_concat, List.getLastD_concat]
    rw [if_pos hge, hcur]
    simp only [if_pos hmem]
    rw [if_pos hfil]
    exact ⟨Config.getNested_setNestedE _ _ _ hbase,
      Config.getNested_setNestedE _ _ _ hbase⟩
  · intro base item cand working L hbase hcur hmem hfil
    have hlen : ("delete" :: (base ++ [item])).drop 1 = base ++ [item] := by
      simp
    have hge : (base ++ [item]).length ≥ 2 := by
      have := List.length_pos.mpr hbase
      simp [List.length_append]
      omega
    unfold Config.applyDelete
    simp only [hlen, Bool.false_and, Bool.false_eq_true, if_false,
      List.dropLast_concat, List.getLastD_concat]
    rw [if_pos hge, hcur]
    simp only [if_pos hmem]
    rw [if_neg (by simpa using hfil)]
    exact ⟨Config.lookupDoc_delNestedE _ _ hbase,
      Config.lookupDoc_delNestedE _ _ hbase⟩

/-- Witness for C6: the three parts applied to the schema
`interfaces <tagNode> address <tagNode scalar, multi>`: setting
`10.0.0.1/24` twice stores it once; deleting it from a two-element list
leaves `10.0.0.2/24` in candidate and working; deleting it from a
one-element list removes the path from both. -/
theorem C6_multi_value_set_delete_witness :
    (Config.getNested
        (.map (Config.applySet (some Config.ifaceSchema)
          ["set", "interfaces", "address"]
          [("interfaces", "eth0"), ("address", "10.0.0.1/24")]
          (Config.applySet (some Config.ifaceSchema)
            ["set", "interfaces", "address"]
            [("interfaces", "eth0"), ("address", "10.0.0.1/24")] [] [])
          [])) ["interfaces", "eth0", "address"] =
      .vals [Config.VAtom.s "10.0.0.1/24"]) ∧
    ([Config.VAtom.s "10.0.0.1/24"].count (Config.VAtom.s "10.0.0.1/24") = 1) ∧
    (Config.getNested
        (.map (Config.applyDelete
          ["delete", "interfaces", "eth0", "address", "10.0.0.1/24"] false
          Config.candTwoAddrs []).1) ["interfaces", "eth0", "address"] =
      .vals [Config.VAtom.s "10.0.0.2/24"]) ∧
    (Config.getNested
        (.map (Config.applyDelete
          ["delete", "interfaces", "eth0", "address", "10.0.0.1/24"] false
          Config.candTwoAddrs []).2) ["interfaces", "eth0", "address"] =
      .vals [Config.VAtom.s "10.0.0.2/24"]) ∧
    (Config.lookupDoc
        (.map (Config.applyDelete
          ["delete", "interfaces", "eth0", "address", "10.0.0.1/24"] false
          Config.candOneAddr []).1) ["interfaces", "eth0", "address"] =
      none) ∧
    (Config.lookupDoc
        (.map (Config.applyDelete
          ["delete", "interfaces", "eth0", "address", "10.0.0.1/24"] false
          Config.candOneAddr []).2) ["interfaces", "eth0", "address"] =
      none) := by
  have h1 := C6_multi_value_set_delete.1 (some Config.ifaceSchema)
    ["set", "interfaces", "address"]
    [("interfaces", "eth0"), ("address", "10.0.0.1/24")] [] []
    ["interfaces", "eth0", "address"] (some Config.addrSchema)
    "10.0.0.1/24" [] rfl (by simp) rfl rfl (by simp)
  have h2 := C6_multi_value_set_delete.2.1
    ["interfaces", "eth0", "address"] "10.0.0.1/24"
    Config.candTwoAddrs []
    [Config.VAtom.s "10.0.0.1/24", Config.VAtom.s "10.0.0.2/24"]
    (by simp) rfl (by decide) (by decide)
  have h3 := C6_multi_value_set_delete.2.2
    ["interfaces", "eth0", "address"] "10.0.0.1/24"
    Config.candOneAddr [] [Config.VAtom.s "10.0.0.1/24"]
    (by simp) rfl (by decide) (by decide)
  exact ⟨h1.1, h1.2, h2.1, h2.2, h3.1, h3.2⟩

namespace Fmt

/-- Rebuilding a string from its character list is the identity. -/
theorem strMk_data (s : String) : String.mk s.data = s := by
  cases s
  rfl

/-- A pointwise-false predicate makes `List.any` false. -/
theorem any_false {p : Char → Bool} : ∀ {l : List Char},
    (∀ c ∈ l, p c = false) → l.any p = false := by
  intro l h
  induction l with
  | nil => rfl
  | cons c rest ih =>
    rw [List.any_cons, h c (by simp), ih (fun x hx => h x (by simp [hx]))]
    rfl

/-- A pointwise-true predicate keeps `List.takeWhile` whole. -/
theorem takeWhile_all {p : Char → Bool} : ∀ {l : List Char},
    (∀ c ∈ l, p c = true) → l.takeWhile p = l := by
  intro l h
  induction l with
  | nil => rfl
  | cons c rest ih =>
    rw [List.takeWhile_cons, h c (by simp)]
    rw [ih (fun x hx => h x (by simp [hx]))]
    simp

/-- A pointwise-true predicate empties `List.dropWhile`. -/
theorem dropWhile_all {p : Char → Bool} : ∀ {l : List Char},
    (∀ c ∈ l, p c = true) → l.dropWhile p = [] := by
  intro l h
  induction l with
  | nil => rfl
  | cons c rest ih =>
    rw [List.dropWhile_cons, h c (by simp)]
    simp only [if_true]
    exact ih (fun x hx => h x (by simp [hx]))

/-- On a simple named field (no brace, colon, conversion, attribute or
index character; not empty; not all digits) `substField` substitutes the
name's value, a missing name kept verbatim with its braces. -/
theorem substField_simple (tags : List (String × String)) (name : String)
    (hne : name.data ≠ []) (hok : name.data.all okFieldChar = true)
    (hnum : name.data.all Char.isDigit = false) :
    substField tags name.data =
      .ok ((CliCommon.alookup tags name).getD
        ("\x7b" ++ name ++ "\x7d")) := by
  have hall := List.all_eq_true.mp hok
  have hspecial : ∀ c ∈ name.data,
      ¬(c = '\x7b') ∧ ¬(c = ':') ∧ ¬(c = '!') ∧ ¬(c = '.') ∧
        ¬(c = '[') ∧ ¬(c = ']') := by
    intro c hc
    have h0 := hall c hc
    simp [okFieldChar] at h0
    obtain ⟨⟨⟨⟨⟨⟨h1, h2⟩, h3⟩, h4⟩, h5⟩, h6⟩, h7⟩ := h0
    exact ⟨h1, h3, h4, h5, h6, h7⟩
  have htw : name.data.takeWhile (fun c => c ≠ ':') = name.data :=
    takeWhile_all (fun c hc => by simp [(hspecial c hc).2.1])
  have hdw : name.data.dropWhile (fun c => c ≠ ':') = [] :=
    dropWhile_all (fun c hc => by simp [(hspecial c hc).2.1])
  rw [substField]
  rw [any_false (fun c hc => by simp [(hspecial c hc).1])]
  rw [htw, hdw]
  rw [any_false (fun c hc => by
    have h := hspecial c hc
    simp [h.2.2.1, h.2.2.2.1, h.2.2.2.2.1, h.2.2.2.2.2])]
  simp only [if_false, Bool.false_eq_true]
  rw [if_neg (by
    simp only [List.isEmpty_iff, hnum]
    simp [hne])]
  rw [strMk_data]
  cases halk : CliCommon.alookup tags name with
  | some v => simp [applySpec]
  | none => simp [applySpec]

/-- Running the formatter in field mode over the field's characters up to
the closing brace formats the accumulated field. -/
theorem fmtRun_field (tags : List (String × String)) (nm : List Char)
    (acc rest : List Char) (h : nm.all (fun c => c ≠ '\x7d') = true) :
    fmtRun tags (some acc) (nm ++ '\x7d' :: rest) =
      (match substField tags (acc.reverse ++ nm) with
       | .ok repl => mapOk (fun s => repl ++ s) (fmtRun tags none rest)
       | .err => .err
       | .unmodeled => .unmodeled) := by
  induction nm generalizing acc with
  | nil => simp [fmtRun]
  | cons c nm ih =>
    have hc : ¬(c = '\x7d') := by
      have := (List.all_eq_true.mp h) c (by simp)
      simpa using this
    have hrest : nm.all (fun c => c ≠ '\x7d') = true := by
      refine List.all_eq_true.mpr (fun x hx => ?_)
      exact (List.all_eq_true.mp h) x (by simp [hx])
    rw [List.cons_append]
    rw [show fmtRun tags (some acc) (c :: (nm ++ '\x7d' :: rest)) =
      fmtRun tags (some (c :: acc)) (nm ++ '\x7d' :: rest) from by
        simp [fmtRun, hc]]
    rw [ih (c :: acc) hrest]
    simp

end Fmt

/-- C9 counterexample: a placeholder with a format spec refutes the
original claim's universal quantification over template strings.  On
`"ping \x7ba:>5\x7d"` with no binding for `a`, `format_map` succeeds --
`_Default` supplies `"\x7ba\x7d"` and the `>5` spec right-pads it -- so the
source returns `"ping   \x7ba\x7d"`: the placeholder is not left verbatim
including its braces (the spec is consumed and fill inserted), no
formatting error occurs, and the template is not returned unmodified.
With `a` bound to `"x"` the result is the padded `"ping     x"`, not a
plain value substitution. -/
theorem C9_format_spec_counterexample :
    Fmt.fmtCommand "ping \x7ba:>5\x7d" [] = some "ping   \x7ba\x7d" ∧
    Fmt.fmtCommand "ping \x7ba:>5\x7d" [("a", "x")] = some "ping     x" ∧
    "ping   \x7ba\x7d" ≠ "ping \x7ba:>5\x7d" := ⟨rfl, rfl, by decide⟩

/-- C9 (amended to simple named placeholders, the only form the
repository's command templates use): command formatting substitutes a
`\x7bname\x7d` placeholder whose simple name (non-empty, no conversion,
spec, attribute or index characters, not all digits) has a matching key
with that key's value and leaves such a placeholder with no matching key
verbatim including its braces (the step lemma, stated for a simple named
field followed by any well-formatted tail); it returns the template
unmodified whenever formatting raises; and on the spec's concrete example
`format("ping \x7bhost\x7d count \x7bn\x7d", \x7b"host": "10.0.0.1"\x7d)`
it yields `"ping 10.0.0.1 count \x7bn\x7d"`. -/
theorem C9_format_with_tags :
    (∀ (tags : List (String × String)) (t : String),
       Fmt.fmtRun tags none t.data = .err → Fmt.fmtCommand t tags = some t) ∧
    (∀ (tags : List (String × String)) (name : String)
       (rest : List Char) (s2 : String),
       name.data ≠ [] →
       name.data.all Fmt.okFieldChar = true →
       name.data.all Char.isDigit = false →
       Fmt.fmtRun tags none rest = .ok s2 →
       Fmt.fmtRun tags none ('\x7b' :: (name.data ++ '\x7d' :: rest)) =
         .ok (((CliCommon.alookup tags name).getD
           ("\x7b" ++ name ++ "\x7d")) ++ s2)) ∧
    Fmt.fmtCommand "ping \x7bhost\x7d count \x7bn\x7d"
      [("host", "10.0.0.1")] = some "ping 10.0.0.1 count \x7bn\x7d" := by
  refine ⟨?_, ?_, by rfl⟩
  · intro tags t h
    simp [Fmt.fmtCommand, h]
  · intro tags name rest s2 hne hok hnum hrest
    obtain ⟨c0, nm0, hdn⟩ : ∃ c0 nm0, name.data = c0 :: nm0 := by
      cases hd : name.data with
      | nil => exact absurd hd hne
      | cons c0 nm0 => exact ⟨c0, nm0, rfl⟩
    have hok0 : Fmt.okFieldChar c0 = true := by
      have := List.all_eq_true.mp hok c0 (by simp [hdn])
      simpa using this
    have hc0open : ¬(c0 = '\x7b') := by
      simp [Fmt.okFieldChar] at hok0
      tauto
    have hstep : Fmt.fmtRun tags none ('\x7b' :: (name.data ++ '\x7d' :: rest)) =
        Fmt.fmtRun tags (some []) (name.data ++ '\x7d' :: rest) := by
      rw [hdn]
      simp [Fmt.fmtRun, hc0open]
    rw [hstep]
    have hnd : name.data.all (fun c => c ≠ '\x7d') = true := by
      refine List.all_eq_true.mpr (fun x hx => ?_)
      have := List.all_eq_true.mp hok x hx
      simp [Fmt.okFieldChar] at this
      simp only [ne_eq, decide_not]
      have hx2 : ¬(x = '\x7d') := by tauto
      simpa using hx2
    rw [Fmt.fmtRun_field tags name.data [] rest hnd]
    simp only [List.reverse_nil, List.nil_append,
      Fmt.substField_simple tags name hne hok hnum, hrest]
    rfl

/-- Witness for C9: the error-fallback part applied to the malformed
template `"ping \x7bhost"` (unterminated field), and the substitution step
applied to the simple field `host` with tail `" ok"`. -/
theorem C9_format_with_tags_witness :
    Fmt.fmtCommand "ping \x7bhost" [] = some "ping \x7bhost" ∧
    Fmt.fmtRun [("host", "10.0.0.1")] none
        ('\x7b' :: ("host".data ++ '\x7d' :: " ok".data)) =
      .ok ("10.0.0.1" ++ " ok") := by
  refine ⟨C9_format_with_tags.1 [] "ping \x7bhost" (by rfl), ?_⟩
  exact C9_format_with_tags.2.1 [("host", "10.0.0.1")] "host" " ok".data
    " ok" (by decide) (by rfl) (by rfl) (by rfl)

/-- C10, counterexample: a validator returning the empty tuple makes
`_call_validator` itself raise: `bool(result[0])` indexes the empty tuple
outside the `try` block, so the `IndexError` propagates to the caller
instead of being normalized into an `(ok, message)` pair. -/
theorem C10_empty_tuple_counterexample :
    Validate.callValidator (fun _ => Except.ok (Validate.PyVal.tuple []))
      "1.2.3.4" = Except.error "tuple index out of range" := rfl

/-- C10, amended: for every validator callable that does not return an
empty tuple on the given value, `_call_validator` returns a normalized
`(ok, message)` pair and never propagates an exception: a raised exception
becomes `(False, "validator exception: ...")`, a bare boolean `b` becomes
`(b, "" or "validation failed")`, and a non-empty tuple becomes
`(bool(first), str(second) or "")`. -/
theorem C10_call_validator_normalizes
    (f : String → Except String Validate.PyVal) (v : String)
    (hnz : ∀ es, f v = Except.ok (Validate.PyVal.tuple es) → es ≠ []) :
    (∃ p, Validate.callValidator f v = Except.ok p) ∧
    (∀ e, f v = Except.error e →
      Validate.callValidator f v =
        Except.ok (false, "validator exception: " ++ e)) ∧
    (∀ b, f v = Except.ok (Validate.PyVal.bool b) →
      Validate.callValidator f v =
        Except.ok (b, if b then "" else "validation failed")) ∧
    (∀ x rest, f v = Except.ok (Validate.PyVal.tuple (x :: rest)) →
      Validate.callValidator f v =
        Except.ok (Validate.truthy x,
          match rest with
          | [] => ""
          | m :: _ => Validate.pyStr m)) := by
  refine ⟨?_, ?_, ?_, ?_⟩
  · cases hv : f v with
    | error e =>
      simp only [Validate.callValidator, hv]
      exact ⟨_, rfl⟩
    | ok r =>
      cases r with
      | tuple es =>
        cases es with
        | nil => exact absurd rfl (hnz [] hv)
        | cons x rest =>
          simp only [Validate.callValidator, hv]
          exact ⟨_, rfl⟩
      | none =>
        simp only [Validate.callValidator, hv]
        exact ⟨_, rfl⟩
      | bool b =>
        simp only [Validate.callValidator, hv]
        exact ⟨_, rfl⟩
      | str s =>
        simp only [Validate.callValidator, hv]
        exact ⟨_, rfl⟩
  · intro e he
    simp [Validate.callValidator, he]
  · intro b hb
    simp [Validate.callValidator, hb, Validate.truthy]
  · intro x rest hx
    simp [Validate.callValidator, hx]

/-- Witness for C10: the amended theorem applied to a validator constantly
returning the bare boolean `False`. -/
theorem C10_call_validator_normalizes_witness :
    (∃ p, Validate.callValidator
      (fun _ => Except.ok (Validate.PyVal.bool false)) "256.1.1.1" =
        Except.ok p) ∧
    (∀ e, (Except.ok (Validate.PyVal.bool false) :
        Except String Validate.PyVal) = Except.error e →
      Validate.callValidator
        (fun _ => Except.ok (Validate.PyVal.bool false)) "256.1.1.1" =
          Except.ok (false, "validator exception: " ++ e)) ∧
    (∀ b, (Except.ok (Validate.PyVal.bool false) :
        Except String Validate.PyVal) = Except.ok (Validate.PyVal.bool b) →
      Validate.callValidator
        (fun _ => Except.ok (Validate.PyVal.bool false)) "256.1.1.1" =
          Except.ok (b, if b then "" else "validation failed")) ∧
    (∀ x rest, (Except.ok (Validate.PyVal.bool false) :
        Except String Validate.PyVal) =
          Except.ok (Validate.PyVal.tuple (x :: rest)) →
      Validate.callValidator
        (fun _ => Except.ok (Validate.PyVal.bool false)) "256.1.1.1" =
          Except.ok (Validate.truthy x,
            match rest with
            | [] => ""
            | m :: _ => Validate.pyStr m)) :=
  C10_call_validator_normalizes
    (fun _ => Except.ok (Validate.PyVal.bool false)) "256.1.1.1"
    (by intro es h; simp at h)

/-- C3: a commit replaces the committed document with the merge of the
working copy and the candidate and resets the candidate to the empty
document; running commit again immediately (no intervening set/delete)
leaves the committed document identical and computes an empty diff. -/
theorem C3_commit_idempotent (s : Config.Store) :
    ((Config.commitStep s).1.base =
        Config.mergeEntries s.working s.cand) ∧
    ((Config.commitStep s).1.cand = []) ∧
    ((Config.commitStep (Config.commitStep s).1).1.base =
        (Config.commitStep s).1.base) ∧
    ((Config.commitStep (Config.commitStep s).1).2 = []) := by
  refine ⟨rfl, rfl, ?_, ?_⟩
  · show Config.mergeEntries (Config.mergeEntries s.working s.cand) [] =
      Config.mergeEntries s.working s.cand
    exact Config.mergeEntries_nil _
  · show Config.diff []
      (some (.map (Config.mergeEntries s.working s.cand)))
      (some (.map (Config.mergeEntries
        (Config.mergeEntries s.working s.cand) []))) = []
    rw [Config.mergeEntries_nil]
    exact Config.diff_refl [] _

/-- C7: `extract_tag_values` on `"show ip route 1.1.1.1/32 test abc"`
against the tree where `route` (under `show ip`) is a tag node with a child
tag node `test` captures each tag node's first non-child token under that
tag node's key name, yielding exactly
`{"route": "1.1.1.1/32", "test": "abc"}`. -/
theorem C7_extract_tag_values_roundtrip :
    CliCommon.extractTagValues CliCommon.opTreeNested
      "show ip route 1.1.1.1/32 test abc" =
      [("route", "1.1.1.1/32"), ("test", "abc")] := by
  rfl

/-- C1: resolving `["show","ip","route","1.1.1.1/32"]` against a tree whose
`route` node (under `show ip`) is a tag node with no declared children yields
the `route` tag node itself as the resolved node, consumed path
`["show","ip","route"]`, and no error token: the value token is consumed by
the tag node but neither descends nor extends the consumed path. -/
theorem C1_tag_node_consumption :
    CliCommon.resolvePath CliCommon.opTreeBare ["show", "ip", "route", "1.1.1.1/32"] =
      (some CliCommon.routeNodeBare, ["show", "ip", "route"], none) := by
  rfl
